import Mathlib

/-!
Compile-time symbolic computation (`2025/12/04/main.cpp`).

A shallow embedding of the template metaprograms of `main.cpp`.  The C++ types
that the metaprograms compute with (`Int<N>`, `Char<C>`, `Cons<X, Xs>`, `Nil`,
`std::tuple<A, B>`, `Str<Cs>`, `StrView<S, I, N>`, `std::bool_constant<B>`,
`Vec2<X, Y>`, `Vec3<X, Y, Z>`)
are the values of one Lean type `Ty`.  A class template with a member `value`
is a Lean function into `Option Ty`: `none` stands for an instantiation that is
ill-formed (no matching specialisation, no member `value`, or a template
argument that is not a constant expression, such as a division by zero or an
`int` overflow).  A template template parameter is a Lean function.  The type
`int` has 32 bits; a `char` is a Lean `Char`, compared and promoted to `int` by
its code.  That is the value of the `char` for the 7-bit ASCII characters
(codes below 128), whatever the signedness of `char`; the claims on what
`Calculator` computes from the code of a character are stated for strings of
such characters.
-/

namespace Blog

/-- Largest value of the C++ type `int` (32 bits). -/
def INT_MAX : ℤ := 2147483647

/-- Smallest value of the C++ type `int` (32 bits). -/
def INT_MIN : ℤ := -2147483648

/-- The integer `n` is a value of the C++ type `int`. -/
def inInt (n : ℤ) : Bool := decide (INT_MIN ≤ n) && decide (n ≤ INT_MAX)

/-- The C++ types the metaprograms compute with. -/
inductive Ty where
  | Int (N : ℤ)
  | Char (C : Char)
  | Cons (X Xs : Ty)
  | Nil
  | tuple (A B : Ty)
  | bool_constant (B : Bool)
  | Str (Cs : List Char)
  | StrView (S : Ty) (I N : Nat)
  | Vec2 (X Y : ℤ)
  | Vec3 (X Y Z : ℤ)
  deriving DecidableEq, Repr

/-- The type `Int<e>` for an `int` expression whose mathematical value is `n`:
the template argument must be a constant expression, which it is not when the
value overflows `int`. -/
def mkInt (n : ℤ) : Option Ty := if inInt n then some (Ty.Int n) else none

/-- The value of a `char` as an `int` (integral promotion), taken to be the
code of the character: this is the value of the `char` for 7-bit ASCII
characters (codes below 128), signed or unsigned. -/
def charVal (c : Char) : ℤ := (c.toNat : ℤ)

/-- The terminating character of a C string. -/
def NUL : Char := Char.ofNat 0

/-! ## Template Specialization -/

/-- The primary class template `Vec4<T>`: the member `data` is an array of
four `T`. -/
structure Vec4 (T : Type) where
  data : List T

/-- The constructor `Vec4(T x, T y, T z, T w) : data{x, y, z, w}`. -/
def Vec4.ctor {T : Type} (x y z w : T) : Vec4 T := ⟨[x, y, z, w]⟩

/-- The member function `Vec4<T>::get`: `data[i]`, undefined past the end of
the array. -/
def Vec4.get {T : Type} (v : Vec4 T) (i : Nat) : Option T := v.data[i]?

/-- The explicit specialisation `Vec4<bool>`: the member `data` is one
`std::uint8_t`. -/
structure Vec4_bool where
  data : Nat

/-- The value of a `bool` promoted to `int`. -/
def boolVal (b : Bool) : Nat := if b then 1 else 0

/-- The constructor of `Vec4<bool>`:
`data((std::uint8_t)x | (y << 1) | (z << 2) | (w << 3))`, converted to
`std::uint8_t`. -/
def Vec4_bool.ctor (x y z w : Bool) : Vec4_bool :=
  ⟨(boolVal x % 256 ||| (boolVal y <<< 1) ||| (boolVal z <<< 2) ||| (boolVal w <<< 3)) % 256⟩

/-- The member function `Vec4<bool>::get`: `(data >> i) & 1` converted to
`bool`; a shift by the width of `int` or more is undefined. -/
def Vec4_bool.get (v : Vec4_bool) (i : Nat) : Option Bool :=
  if i < 32 then some (decide (((v.data >>> i) &&& 1) ≠ 0)) else none

/-! ## Pattern Matching -/

/-- The `int` that a run-time `int` operation gives when its mathematical
result is `n`: an overflow wraps around (32 bits, two's complement). -/
def wrapInt (n : ℤ) : ℤ := (n - INT_MIN) % 4294967296 + INT_MIN

/-- The function template `fib<N>()`: the explicit specialisations `fib<1>`
and `fib<0>` are chosen before the primary template, whose body calls
`fib<N - 1>()` and `fib<N - 2>()`.  `fuel` bounds the depth of the
instantiations; `none` means that the depth did not suffice. -/
def fibFuel : Nat → ℤ → Option ℤ
  | 0, _ => none
  | fuel + 1, N =>
    if N = 1 then some 1
    else if N = 0 then some 0
    else (fibFuel fuel (N - 1)).bind fun a =>
      (fibFuel fuel (N - 2)).bind fun b => some (wrapInt (a + b))

/-- The value returned by `fib<N>()`, with a depth that suffices for every
`N ≥ 0` (see `fibFuel_of_le`). -/
def fib (N : ℤ) : Option ℤ := fibFuel (N.toNat + 1) N

/-- The arguments `M` of the specialisations `fib<M>` that the instantiation
of `fib<N>` reaches, `N` itself first, down to the depth `fuel`. -/
def fibArgs : Nat → ℤ → List ℤ
  | 0, N => [N]
  | fuel + 1, N =>
    if N = 1 then [N]
    else if N = 0 then [N]
    else N :: (fibArgs fuel (N - 1) ++ fibArgs fuel (N - 2))

/-! ## Pattern Matching & Binding -/

/-- An `int` constant expression whose mathematical value is `n`: it has a
value only when `n` is in the range of `int`. -/
def intConst (n : ℤ) : Option ℤ := if inInt n then some n else none

/-- The member `len_sq<T>::value`: declared for every `T`, defined for
`Vec2<X, Y>` as the constant expression `X * X + Y * Y` of type `int`. -/
def len_sq : Ty → Option ℤ
  | .Vec2 X Y =>
    (intConst (X * X)).bind fun a => (intConst (Y * Y)).bind fun b => intConst (a + b)
  | _ => none

/-! ## Returning Struct Values -/

/-- The family `ext<T, Z>`: declared for every `T`, defined for `Vec2<X, Y>`. -/
def ext : Ty → ℤ → Option Ty
  | .Vec2 X Y, Z => some (Ty.Vec3 X Y Z)
  | _, _ => none

/-- What `std::format` writes for an `int` argument of `{}`: its decimal
digits, after a minus sign when it is negative. -/
def formatInt (n : ℤ) : String :=
  if n < 0 then "-" ++ String.mk (Nat.toDigits 10 n.natAbs)
  else String.mk (Nat.toDigits 10 n.natAbs)

/-- The function `show<T>::value()`; the primary template has no member
`value`.  The specialisations are those for `Vec3<X, Y, Z>`, `Cons<X, Xs>`,
`Nil`, `Char<C>` and `Int<N>`. -/
def show_value : Ty → Option String
  | .Vec3 X Y Z =>
    some ("Vec3<" ++ formatInt X ++ ", " ++ formatInt Y ++ ", " ++ formatInt Z ++ ">")
  | .Cons X Xs =>
    (show_value X).bind fun x => (show_value Xs).bind fun xs =>
      some ("Cons<" ++ x ++ ", " ++ xs ++ ">")
  | .Nil => some "Nil"
  | .Char C => some ("'" ++ String.singleton C ++ "'")
  | .Int N => some (formatInt N)
  | _ => none

/-! ## String & Cons -/

/-- In `to_cons<Str<Cs>>::const_strlen`: the number of characters before the
first NUL; reading past the end of the array is not a constant expression. -/
def const_strlen : List Char → Option Nat
  | [] => none
  | c :: str => if c ≠ NUL then (const_strlen str).map (· + 1) else some 0

/-- The family `to_cons<StrView<Str<S>, I, N>>`, where `rest` is the part
`S[I], S[I+1], ...` of the array `S`: the specialisation `StrView<Str<S>, N, N>`
is the more specialised one and gives `Nil`; otherwise the result is
`Cons<Char<S[I]>, to_cons<StrView<Str<S>, I + 1, N>>::value>`, and `S[I]` past
the end of the array is not a constant expression. -/
def to_cons_view (N : Nat) : List Char → Nat → Option Ty
  | rest, I =>
    if I = N then some Ty.Nil
    else match rest with
      | [] => none
      | c :: rest1 => (to_cons_view N rest1 (I + 1)).map (Ty.Cons (Ty.Char c))

/-- The family `to_cons<T>`: declared for every `T`, defined for
`StrView<Str<S>, I, N>` and for `Str<Cs>`. -/
def to_cons : Ty → Option Ty
  | .StrView (.Str S) I N => to_cons_view N (S.drop I) I
  | .Str Cs => (const_strlen Cs).bind fun n => to_cons_view n Cs 0
  | _ => none

/-! ## Higher Order Functions -/

/-- The family `map<F, Xs>`; the primary template has no member `value`. -/
def map (F : Ty → Option Ty) : Ty → Option Ty
  | .Cons X Xs => (F X).bind fun y => (map F Xs).bind fun ys => some (Ty.Cons y ys)
  | .Nil => some Ty.Nil
  | _ => none

/-- The family `add<X, Y>`; the primary template has no member `value`. -/
def add : Ty → Ty → Option Ty
  | .Int X, .Int Y => mkInt (X + Y)
  | _, _ => none

/-- The alias template `add_two<T> = add<T, Int<2>>`. -/
def add_two (T : Ty) : Option Ty := add T (Ty.Int 2)

/-! ## Simple Calculator -/

/-- The family `eval<L, O, R>`: one specialisation for each of the operator
characters, on two `Int`s.  `L / R` is the `int` division of C++ (truncation
toward zero), not a constant expression when `R` is zero. -/
def eval : Ty → Ty → Ty → Option Ty
  | .Int L, .Char O, .Int R =>
    if O = '+' then mkInt (L + R)
    else if O = '-' then mkInt (L - R)
    else if O = '*' then mkInt (L * R)
    else if O = '/' then (if R = 0 then none else mkInt (Int.tdiv L R))
    else none
  | _, _, _ => none

/-- Some specialisation of `eval` matches the arguments `L`, `O`, `R`: two
`Int`s and a `Char` of one of the four operator characters. -/
def evalMatches : Ty → Ty → Ty → Bool
  | .Int _, .Char O, .Int _ =>
    decide (O = '+') || decide (O = '-') || decide (O = '*') || decide (O = '/')
  | _, _, _ => false

/-- The family `foldl<Acc, F, Xs>`: declared for every `Xs`, defined for
`Cons<X, Xs>` and `Nil`. -/
def foldl (Acc : Ty) (F : Ty → Ty → Option Ty) : Ty → Option Ty
  | .Cons X Xs => (F Acc X).bind fun acc => foldl acc F Xs
  | .Nil => some Acc
  | _ => none

/-- The family `to_digit<C>`: `Int<C - '0'>` for a `Char<C>`, the difference
of the promoted values (see `charVal`: the codes, for 7-bit ASCII
characters). -/
def to_digit : Ty → Option Ty
  | .Char C => mkInt (charVal C - charVal '0')
  | _ => none

/-- The family `select<Cond, Then, Else>`, defined for `std::true_type` and
`std::false_type`. -/
def select : Ty → Ty → Ty → Option Ty
  | .bool_constant true, Then, _ => some Then
  | .bool_constant false, _, Else => some Else
  | _, _, _ => none

/-- The condition `C >= '0' && C <= '9'` of `Calculator::evaluator`. -/
def isDigit (C : Char) : Bool := decide (C ≥ '0') && decide (C ≤ '9')

/-- The condition `C == '+' || C == '-' || C == '*' || C == '/'`. -/
def isOperator (C : Char) : Bool :=
  decide (C = '+') || decide (C = '-') || decide (C = '*') || decide (C = '/')

/-- The family `Calculator<Input>::evaluator<Acc, C>`.  Every template argument
of the two `select`s is a type that has to be formed before `select` chooses:
`eval<Int<Value>, Char<Op>, to_digit<Char<C>>::value>::value` is instantiated
for every character `C`, digit or not. -/
def evaluator : Ty → Ty → Option Ty
  | .tuple (.Int Value) (.Char Op), .Char C =>
    (to_digit (Ty.Char C)).bind fun d =>
    (eval (Ty.Int Value) (Ty.Char Op) d).bind fun e =>
    (select (Ty.bool_constant (isDigit C))
      (Ty.tuple e (Ty.Char '+'))
      (Ty.tuple (Ty.Int Value) (Ty.Char C))).bind fun inner =>
    select (Ty.bool_constant (isDigit C || isOperator C))
      inner
      (Ty.tuple (Ty.Int Value) (Ty.Char Op))
  | _, _ => none

/-- The family `Calculator<Input>::get_result<R>`. -/
def get_result : Ty → Option Ty
  | .tuple (.Int Value) (.Char _) => some (Ty.Int Value)
  | _ => none

/-- The member `Calculator<Input>::value`. -/
def Calculator (Input : Ty) : Option Ty :=
  (to_cons Input).bind fun Cons =>
  (foldl (Ty.tuple (Ty.Int 0) (Ty.Char '+')) evaluator Cons).bind fun Folded =>
  get_result Folded

/-- The type `Str<Cs>` for the array of a string literal: the characters of
`s` followed by the terminating NUL. -/
def cstr (s : List Char) : Ty := Ty.Str (s ++ [NUL])

/-! ## The evaluator in the words of the specification (§4.4)

These definitions follow the specification, on mathematical integers; they are
what the template metaprogram is compared with. -/

/-- The list `Cons<x1, Cons<x2, ... Nil>>` of the given elements. -/
def ofList : List Ty → Ty
  | [] => Ty.Nil
  | x :: xs => Ty.Cons x (ofList xs)

/-- The list of `Char` atoms of the given characters. -/
def charList (s : List Char) : Ty := ofList (s.map Ty.Char)

/-- Specification §4.4 step 3, the operator application rule family: sum,
difference, product, quotient truncated toward zero; division by zero is left
undefined. -/
def applyOp (op : Char) (l r : ℤ) : Option ℤ :=
  if op = '+' then some (l + r)
  else if op = '-' then some (l - r)
  else if op = '*' then some (l * r)
  else if op = '/' then (if r = 0 then none else some (Int.tdiv l r))
  else none

/-- The number a character stands for when it is read as a digit. -/
def digitVal (c : Char) : ℤ := charVal c - charVal '0'

/-- Specification §4.4 step 2, the per-character transition on the
accumulator `(value, pendingOp)`: digit, operator, other. -/
def transition (acc : ℤ × Char) (c : Char) : Option (ℤ × Char) :=
  if isDigit c then (applyOp acc.2 acc.1 (digitVal c)).map fun v => (v, '+')
  else if isOperator c then some (acc.1, c)
  else some acc

/-- Specification §4.4 step 2: the fold of `transition`, strictly left to
right. -/
def foldSpec : ℤ × Char → List Char → Option (ℤ × Char)
  | acc, [] => some acc
  | acc, c :: cs => (transition acc c).bind fun acc1 => foldSpec acc1 cs

/-- Specification §4.4: `evaluate`, the value component of the final
accumulator of the fold from `(0, '+')`. -/
def evaluateSpec (s : List Char) : Option ℤ := (foldSpec (0, '+') s).map Prod.fst

/-- Along the scan of `s` from the accumulator `acc`, every operator
application that `evaluator` instantiates, which is the pending operator
applied to `(value, c - '0')` for each character `c` (digit or not), has a
result in the range of `int` when it has one. -/
def evalsFit : ℤ × Char → List Char → Bool
  | _, [] => true
  | acc, c :: cs =>
    (match applyOp acc.2 acc.1 (digitVal c) with
      | some r => inInt r
      | none => true) &&
    (match transition acc c with
      | some acc1 => evalsFit acc1 cs
      | none => true)

/-- The accumulator `std::tuple<Int<value>, Char<pendingOp>>`. -/
def accTy (acc : ℤ × Char) : Ty := Ty.tuple (Ty.Int acc.1) (Ty.Char acc.2)

/-- Scanning `s` from the pending operator `op`: the character `0` is
processed at a moment when the pending operator is `/`.  The pending operator
after a digit is `+`, after an operator character that character, and after
any other character what it was. -/
def zeroAfterSlash : Char → List Char → Bool
  | _, [] => false
  | op, c :: cs =>
    if isDigit c then (decide (op = '/') && decide (c = '0')) || zeroAfterSlash '+' cs
    else if isOperator c then zeroAfterSlash c cs
    else zeroAfterSlash op cs

/-- The rendering of a list from the renderings of its elements, in the
angle-bracket form `Cons<x1, Cons<x2, ... Nil>>`. -/
def renderList : List String → String
  | [] => "Nil"
  | x :: xs => "Cons<" ++ x ++ ", " ++ renderList xs ++ ">"

/-- The number of digit characters of a string. -/
def countDigits (s : List Char) : Nat := (s.filter isDigit).length

/-- The characters that the evaluator does not ignore: the digits and the four
operator characters. -/
def isCalculatorChar (c : Char) : Bool := isDigit c || isOperator c

/-- The sum of the digit values of a string. -/
def digitSum (s : List Char) : ℤ := (s.map digitVal).sum

/-! ## Characters -/

theorem charVal_nonneg (c : Char) : 0 ≤ charVal c := by
  unfold charVal; exact Int.ofNat_nonneg _

theorem charVal_lt (c : Char) : charVal c < 1114112 := by
  have h := c.valid
  simp only [UInt32.isValidChar, Nat.isValidChar] at h
  have h2 : c.toNat < 1114112 := by
    simp only [Char.toNat]; omega
  unfold charVal; exact_mod_cast h2

theorem charVal_zero : charVal '0' = 48 := by decide

theorem isDigit_iff (c : Char) : isDigit c = true ↔ 48 ≤ charVal c ∧ charVal c ≤ 57 := by
  have h1 : (c ≥ '0') ↔ 48 ≤ c.toNat := by
    simp only [GE.ge, Char.le_def, UInt32.le_def, Char.toNat, UInt32.toNat, BitVec.le_def]
    rfl
  have h2 : (c ≤ '9') ↔ c.toNat ≤ 57 := by
    simp only [Char.le_def, UInt32.le_def, Char.toNat, UInt32.toNat, BitVec.le_def]
    rfl
  simp only [isDigit, Bool.and_eq_true, decide_eq_true_eq, h1, h2, charVal]
  omega

theorem eq_of_charVal_eq {c d : Char} (h : charVal c = charVal d) : c = d := by
  have h2 : c.toNat = d.toNat := by unfold charVal at h; exact_mod_cast h
  rw [← Char.ofNat_toNat c, ← Char.ofNat_toNat d, h2]

theorem isDigit_of_digitVal_eq_zero {c : Char} (h : digitVal c = 0) : isDigit c = true := by
  rw [isDigit_iff]
  unfold digitVal at h
  rw [charVal_zero] at h
  omega

theorem digitVal_range {c : Char} (h : isDigit c = true) : 0 ≤ digitVal c ∧ digitVal c ≤ 9 := by
  rw [isDigit_iff] at h
  unfold digitVal
  rw [charVal_zero]
  omega

theorem inInt_iff (n : ℤ) : inInt n = true ↔ -2147483648 ≤ n ∧ n ≤ 2147483647 := by
  simp [inInt, INT_MIN, INT_MAX]

theorem inInt_digitVal (c : Char) : inInt (digitVal c) = true := by
  rw [inInt_iff]
  have h1 := charVal_nonneg c
  have h2 := charVal_lt c
  unfold digitVal
  rw [charVal_zero]
  omega

theorem to_digit_Char (c : Char) : to_digit (Ty.Char c) = some (Ty.Int (digitVal c)) := by
  have h := inInt_digitVal c
  simp only [to_digit, mkInt]
  unfold digitVal at h
  rw [if_pos h]
  rfl

theorem isOperator_iff (c : Char) :
    isOperator c = true ↔ c = '+' ∨ c = '-' ∨ c = '*' ∨ c = '/' := by
  simp [isOperator, or_assoc]

theorem not_isDigit_of_isOperator {c : Char} (h : isOperator c = true) : isDigit c = false := by
  rw [isOperator_iff] at h
  rcases h with h | h | h | h <;> subst h <;> decide

/-! ## One step of the evaluator -/

theorem eval_Int (L R : ℤ) (O : Char) :
    eval (Ty.Int L) (Ty.Char O) (Ty.Int R) = (applyOp O L R).bind mkInt := by
  simp only [eval, applyOp]
  split_ifs <;> simp

theorem evaluator_accTy (acc : ℤ × Char) (c : Char) :
    evaluator (accTy acc) (Ty.Char c) =
      (applyOp acc.2 acc.1 (digitVal c)).bind fun r =>
        if inInt r then (transition acc c).map accTy else none := by
  obtain ⟨v, op⟩ := acc
  simp only [accTy, evaluator, to_digit_Char, Option.some_bind, eval_Int]
  cases hr : applyOp op v (digitVal c) with
  | none => rfl
  | some r =>
    simp only [Option.some_bind, mkInt]
    by_cases hfit : inInt r = true
    · simp only [hfit, if_true, Option.some_bind, transition, hr, Option.map_some']
      by_cases hd : isDigit c = true
      · simp [hd, select, accTy]
      · rw [Bool.not_eq_true] at hd
        by_cases ho : isOperator c = true
        · simp [hd, ho, select, accTy]
        · rw [Bool.not_eq_true] at ho
          simp [hd, ho, select, accTy]
    · simp [hfit]

theorem applyOp_isSome_of_not_isDigit {op c : Char} (hop : isOperator op = true)
    (hc : isDigit c = false) (v : ℤ) : ∃ r, applyOp op v (digitVal c) = some r := by
  have hne : digitVal c ≠ 0 := by
    intro h
    rw [isDigit_of_digitVal_eq_zero h] at hc
    exact Bool.noConfusion hc
  rw [isOperator_iff] at hop
  rcases hop with h | h | h | h <;> subst h <;> simp [applyOp, hne]

theorem transition_isOperator {acc acc1 : ℤ × Char} {c : Char}
    (hop : isOperator acc.2 = true) (h : transition acc c = some acc1) :
    isOperator acc1.2 = true := by
  unfold transition at h
  split_ifs at h with hd ho
  · cases hr : applyOp acc.2 acc.1 (digitVal c) with
    | none => simp [hr] at h
    | some r =>
      simp [hr] at h
      subst h
      rfl
  · simp at h; subst h; exact ho
  · simp at h; subst h; exact hop

/-! ## The fold of the evaluator -/

theorem foldl_evaluator (s : List Char) :
    ∀ acc : ℤ × Char, isOperator acc.2 = true →
      foldl (accTy acc) evaluator (charList s) =
        if evalsFit acc s then (foldSpec acc s).map accTy else none := by
  induction s with
  | nil => intro acc _; simp [charList, ofList, foldl, evalsFit, foldSpec]
  | cons c cs ih =>
    intro acc hop
    have hstep := evaluator_accTy acc c
    simp only [charList, List.map_cons, ofList, foldl, evalsFit, foldSpec] at ih ⊢
    rw [hstep]
    cases hr : applyOp acc.2 acc.1 (digitVal c) with
    | none =>
      have hd : isDigit c = true := by
        by_contra hd
        rw [Bool.not_eq_true] at hd
        obtain ⟨r, h⟩ := applyOp_isSome_of_not_isDigit hop hd acc.1
        rw [h] at hr
        exact Option.noConfusion hr
      simp [transition, hd, hr]
    | some r =>
      by_cases hfit : inInt r = true
      · cases ht : transition acc c with
        | none => simp [hfit]
        | some acc1 =>
          have := ih acc1 (transition_isOperator hop ht)
          simp [hfit, this]
      · simp [hfit]

/-! ## The lexer -/

theorem const_strlen_append (s t : List Char) (h : ∀ c ∈ s, c ≠ NUL) :
    const_strlen (s ++ NUL :: t) = some s.length := by
  induction s with
  | nil => simp [const_strlen]
  | cons c cs ih =>
    have hc : c ≠ NUL := h c (List.mem_cons_self c cs)
    have hcs : ∀ d ∈ cs, d ≠ NUL := fun d hd => h d (List.mem_cons_of_mem c hd)
    simp [const_strlen, hc, ih hcs]

theorem to_cons_view_append (s t : List Char) :
    ∀ I : Nat, to_cons_view (I + s.length) (s ++ t) I = some (charList s) := by
  induction s with
  | nil => intro I; unfold to_cons_view; simp [charList, ofList]
  | cons c cs ih =>
    intro I
    have hne : ¬ (I = I + (c :: cs).length) := by simp
    have hlen : I + (c :: cs).length = (I + 1) + cs.length := by simp; omega
    unfold to_cons_view
    rw [if_neg hne, hlen]
    simp only [List.cons_append]
    rw [ih (I + 1)]
    simp [charList, ofList]

theorem to_cons_cstr (s : List Char) (h : ∀ c ∈ s, c ≠ NUL) :
    to_cons (cstr s) = some (charList s) := by
  have h1 := const_strlen_append s [] h
  have h2 := to_cons_view_append s [NUL] 0
  simp only [Nat.zero_add] at h2
  simp only [cstr, to_cons, h1, Option.some_bind, h2]

/-! ## The calculator on a string literal -/

theorem get_result_accTy (acc : ℤ × Char) : get_result (accTy acc) = some (Ty.Int acc.1) := rfl

theorem Calculator_cstr (s : List Char) (h : ∀ c ∈ s, c ≠ NUL) :
    Calculator (cstr s) =
      if evalsFit (0, '+') s then (evaluateSpec s).map Ty.Int else none := by
  have hf := foldl_evaluator s (0, '+') (by decide)
  simp only [accTy] at hf
  simp only [Calculator, to_cons_cstr s h, Option.some_bind, hf, evaluateSpec]
  by_cases hfit : evalsFit (0, '+') s = true
  · simp only [hfit, if_true]
    cases foldSpec (0, '+') s with
    | none => rfl
    | some a => rfl
  · simp [hfit]

theorem Calculator_cstr_of_fit (s : List Char) (h : ∀ c ∈ s, c ≠ NUL)
    (hfit : evalsFit (0, '+') s = true) {v : ℤ} (hv : evaluateSpec s = some v) :
    Calculator (cstr s) = some (Ty.Int v) := by
  rw [Calculator_cstr s h, if_pos hfit, hv]; rfl

/-! ## Inputs that cannot overflow -/

theorem tdiv_abs_le (l r : ℤ) : |Int.tdiv l r| ≤ |l| := by
  have h := Int.natAbs_tdiv l r
  have h2 : (Int.tdiv l r).natAbs ≤ l.natAbs := by
    rw [h]; exact Nat.div_le_self _ _
  rw [Int.abs_eq_natAbs, Int.abs_eq_natAbs]
  exact_mod_cast h2

theorem applyOp_abs_le {op : Char} {l r v : ℤ} (h : applyOp op l r = some v) :
    |v| ≤ |l| * |r| + |l| + |r| := by
  have hl := abs_nonneg l
  have hr := abs_nonneg r
  have hlr : 0 ≤ |l| * |r| := mul_nonneg hl hr
  unfold applyOp at h
  split_ifs at h with h1 h2 h3 h4 h5
  · simp only [Option.some.injEq] at h; subst h
    have := abs_add l r; omega
  · simp only [Option.some.injEq] at h; subst h
    have := abs_sub l r; omega
  · simp only [Option.some.injEq] at h; subst h
    rw [abs_mul]; omega
  · simp only [Option.some.injEq] at h; subst h
    have := tdiv_abs_le l r; omega

theorem evalsFit_of_few_digits (s : List Char) :
    ∀ (acc : ℤ × Char) (m : Nat), |acc.1| < 10 ^ m → m + countDigits s ≤ 7 →
      (∀ c ∈ s, |digitVal c| ≤ 80) → evalsFit acc s = true := by
  induction s with
  | nil => intro acc m _ _ _; rfl
  | cons c cs ih =>
    intro acc m hv hm hc
    have hc0 : |digitVal c| ≤ 80 := hc c (List.mem_cons_self c cs)
    have hcs : ∀ d ∈ cs, |digitVal d| ≤ 80 := fun d hd => hc d (List.mem_cons_of_mem c hd)
    have hm7 : m ≤ 7 := by omega
    have hpow : (10 : ℤ) ^ m ≤ 10 ^ 7 := pow_le_pow_right₀ (by norm_num) hm7
    have hv0 := abs_nonneg acc.1
    have hd0 := abs_nonneg (digitVal c)
    have hfirst : (match applyOp acc.2 acc.1 (digitVal c) with
        | some r => inInt r
        | none => true) = true := by
      cases hr : applyOp acc.2 acc.1 (digitVal c) with
      | none => rfl
      | some r =>
        have hb := applyOp_abs_le hr
        have hprod : |acc.1| * |digitVal c| ≤ 10 ^ 7 * 80 :=
          mul_le_mul (by omega) hc0 hd0 (by norm_num)
        simp only [inInt_iff]
        have := abs_le.mp (le_trans hb (by omega : |acc.1| * |digitVal c| + |acc.1| + |digitVal c| ≤ 2147483647))
        omega
    have hrest : (match transition acc c with
        | some acc1 => evalsFit acc1 cs
        | none => true) = true := by
      cases ht : transition acc c with
      | none => rfl
      | some acc1 =>
        simp only
        unfold transition at ht
        by_cases hd : isDigit c = true
        · rw [if_pos hd] at ht
          cases hr : applyOp acc.2 acc.1 (digitVal c) with
          | none => rw [hr] at ht; exact Option.noConfusion ht
          | some r =>
            rw [hr] at ht
            simp only [Option.map_some', Option.some.injEq] at ht
            subst ht
            have hb := applyOp_abs_le hr
            have hdr := digitVal_range hd
            have hd9 : |digitVal c| ≤ 9 := abs_le.mpr ⟨by omega, hdr.2⟩
            have hprod : |acc.1| * |digitVal c| ≤ |acc.1| * 9 :=
              mul_le_mul_of_nonneg_left hd9 hv0
            have hcount : countDigits (c :: cs) = countDigits cs + 1 := by
              simp [countDigits, List.filter_cons, hd]
            apply ih (r, '+') (m + 1) _ (by omega) hcs
            simp only [pow_succ]
            omega
        · have hcount : countDigits (c :: cs) = countDigits cs := by
            simp [countDigits, List.filter_cons, hd]
          rw [if_neg hd] at ht
          have hacc : acc1.1 = acc.1 := by
            split_ifs at ht <;> simp only [Option.some.injEq] at ht <;> subst ht <;> rfl
          apply ih acc1 m (by rw [hacc]; exact hv) (by omega) hcs
    simp only [evalsFit, hfirst, hrest, Bool.and_self]

/-! ## Deleting the characters that are neither digits nor operators -/

theorem foldSpec_filter (s : List Char) :
    ∀ acc : ℤ × Char,
      foldSpec acc (s.filter isCalculatorChar) = foldSpec acc s := by
  induction s with
  | nil => intro acc; rfl
  | cons c cs ih =>
    intro acc
    by_cases hk : isCalculatorChar c = true
    · simp only [List.filter_cons, hk, if_true, foldSpec, ih]
    · simp only [List.filter_cons, hk, Bool.false_eq_true, if_false, ih acc]
      simp only [isCalculatorChar, Bool.or_eq_true, not_or, Bool.not_eq_true] at hk
      simp [foldSpec, transition, hk.1, hk.2]

theorem evalsFit_filter (s : List Char) :
    ∀ acc : ℤ × Char, evalsFit acc s = true →
      evalsFit acc (s.filter isCalculatorChar) = true := by
  induction s with
  | nil => intro acc h; exact h
  | cons c cs ih =>
    intro acc h
    simp only [evalsFit, Bool.and_eq_true] at h
    by_cases hk : isCalculatorChar c = true
    · simp only [List.filter_cons, hk, if_true, evalsFit, Bool.and_eq_true]
      refine ⟨h.1, ?_⟩
      cases ht : transition acc c with
      | none => rfl
      | some acc1 =>
        have h2 := h.2
        rw [ht] at h2
        exact ih acc1 h2
    · simp only [List.filter_cons, hk, Bool.false_eq_true, if_false]
      have h2 := h.2
      simp only [isCalculatorChar, Bool.or_eq_true, not_or, Bool.not_eq_true] at hk
      simp only [transition, hk.1, hk.2, Bool.false_eq_true, if_false] at h2
      exact ih acc h2

theorem Calculator_filter_of_result (s : List Char) (hs : ∀ c ∈ s, c ≠ NUL) (r : Ty)
    (h : Calculator (cstr s) = some r) :
    Calculator (cstr (s.filter isCalculatorChar)) = some r := by
  have hs2 : ∀ c ∈ s.filter isCalculatorChar, c ≠ NUL :=
    fun c hc => hs c (List.mem_filter.mp hc).1
  rw [Calculator_cstr s hs] at h
  rw [Calculator_cstr _ hs2]
  by_cases hfit : evalsFit (0, '+') s = true
  · rw [if_pos hfit] at h
    rw [if_pos (evalsFit_filter s _ hfit)]
    simp only [evaluateSpec, foldSpec_filter] at h ⊢
    exact h
  · rw [if_neg hfit] at h
    exact Option.noConfusion h

/-! ## Claims on the calculator -/

/-- C1, the fold on an input whose results leave `int`: on the input
`9*9*9*9*9*9*9*9*9*9` no division by zero arises and the fold of the three-case
transition from `(0, '+')` ends with the value 3486784401, which is not an
`int`; `Calculator` has no result there. -/
theorem C1_counterexample :
    (∀ c ∈ "9*9*9*9*9*9*9*9*9*9".toList, c ≠ NUL) ∧
    foldSpec (0, '+') "9*9*9*9*9*9*9*9*9*9".toList = some (3486784401, '+') ∧
    Calculator (cstr "9*9*9*9*9*9*9*9*9*9".toList) = none := by
  decide

/-- C1, as amended: for every input string `s` of 7-bit ASCII characters in
which no division by zero arises (the fold of the three-case transition from
`(0, '+')`, strictly left to right, ends in an accumulator `(v, op)`) and in
which every operator application that the evaluator instantiates stays in the
range of `int`, the result of `Calculator` is `Int<v>`, the value component of
that accumulator; and on `1 + 2 * 3 / 4 - 5` the result is `Int<-3>`. -/
theorem C1_calculator_is_left_fold :
    (∀ (s : List Char) (v : ℤ) (op : Char), (∀ c ∈ s, c ≠ NUL) →
      (∀ c ∈ s, c.toNat < 128) →
      foldSpec (0, '+') s = some (v, op) → evalsFit (0, '+') s = true →
      Calculator (cstr s) = some (Ty.Int v)) ∧
    Calculator (cstr "1 + 2 * 3 / 4 - 5".toList) = some (Ty.Int (-3)) := by
  refine ⟨?_, by decide⟩
  intro s v op hs _ hfold hfit
  apply Calculator_cstr_of_fit s hs hfit
  simp [evaluateSpec, hfold]

/-- C1, the amended claim at the input `1 + 2 * 3 / 4 - 5`: its characters
are 7-bit ASCII, the fold ends in `(-3, '+')`, every instantiated operator
application fits, and the calculator gives `Int<-3>`. -/
theorem C1_calculator_is_left_fold_witness :
    (∀ c ∈ "1 + 2 * 3 / 4 - 5".toList, c ≠ NUL) ∧
    (∀ c ∈ "1 + 2 * 3 / 4 - 5".toList, c.toNat < 128) ∧
    foldSpec (0, '+') "1 + 2 * 3 / 4 - 5".toList = some (-3, '+') ∧
    evalsFit (0, '+') "1 + 2 * 3 / 4 - 5".toList = true ∧
    Calculator (cstr "1 + 2 * 3 / 4 - 5".toList) = some (Ty.Int (-3)) :=
  ⟨by decide, by decide, by decide, by decide,
    C1_calculator_is_left_fold.1 "1 + 2 * 3 / 4 - 5".toList (-3) '+'
      (by decide) (by decide) (by decide) (by decide)⟩

/-- C2, at the input `9*9*9*9*9*9*9*9*9* 1`: deleting the characters that are
neither digits nor operators gives `9*9*9*9*9*9*9*9*9*1`, on which `Calculator`
gives `Int<387420489>`; on the input itself `Calculator` has no result, because
for the space the evaluator instantiates `eval<Int<387420489>, Char<'*'>,
Int<-16>>`, whose product is not an `int`. -/
theorem C2_ignored_character_breaks_result :
    "9*9*9*9*9*9*9*9*9* 1".toList.filter isCalculatorChar
      = "9*9*9*9*9*9*9*9*9*1".toList ∧
    Calculator (cstr "9*9*9*9*9*9*9*9*9*1".toList) = some (Ty.Int 387420489) ∧
    Calculator (cstr "9*9*9*9*9*9*9*9*9* 1".toList) = none ∧
    evaluator (Ty.tuple (Ty.Int 387420489) (Ty.Char '*')) (Ty.Char ' ') = none ∧
    eval (Ty.Int 387420489) (Ty.Char '*') (Ty.Int (-16)) = none := by
  decide

theorem char_ne_NUL_of_isDigit {c : Char} (h : isDigit c = true) : c ≠ NUL := by
  intro hc; subst hc; revert h; decide

theorem abs_digitVal_of_isDigit {c : Char} (h : isDigit c = true) : |digitVal c| ≤ 80 := by
  have := digitVal_range h
  exact abs_le.mpr ⟨by omega, by omega⟩

theorem three_operands (a b c p q : Char) (ha : isDigit a = true) (hb : isDigit b = true)
    (hc : isDigit c = true) (hp : isOperator p = true) (hq : isOperator q = true)
    (x y : ℤ) (hx : applyOp p (digitVal a) (digitVal b) = some x)
    (hy : applyOp q x (digitVal c) = some y) :
    Calculator (cstr [a, ' ', p, ' ', b, ' ', q, ' ', c]) = some (Ty.Int y) ∧
    Calculator (cstr [a, p, b, q, c]) = some (Ty.Int y) := by
  have hna := char_ne_NUL_of_isDigit ha
  have hnb := char_ne_NUL_of_isDigit hb
  have hnc := char_ne_NUL_of_isDigit hc
  have hda := abs_digitVal_of_isDigit ha
  have hdb := abs_digitVal_of_isDigit hb
  have hdc := abs_digitVal_of_isDigit hc
  have hpd := not_isDigit_of_isOperator hp
  have hqd := not_isDigit_of_isOperator hq
  have hsp : isDigit ' ' = false := by decide
  have hso : isOperator ' ' = false := by decide
  have hpn : p ≠ NUL := by intro h; subst h; revert hp; decide
  have hqn : q ≠ NUL := by intro h; subst h; revert hq; decide
  have hpv : |digitVal p| ≤ 80 := by
    rw [isOperator_iff] at hp
    rcases hp with h | h | h | h <;> subst h <;> decide
  have hqv : |digitVal q| ≤ 80 := by
    rw [isOperator_iff] at hq
    rcases hq with h | h | h | h <;> subst h <;> decide
  have hsv : |digitVal ' '| ≤ 80 := by decide
  have hsn : ' ' ≠ NUL := by decide
  have h0 : applyOp '+' 0 (digitVal a) = some (digitVal a) := by simp [applyOp]
  constructor
  · apply Calculator_cstr_of_fit
    · simp [hna, hnb, hnc, hpn, hqn, hsn]
    · apply evalsFit_of_few_digits _ _ 0 (by simp)
      · simp [countDigits, List.filter_cons, ha, hb, hc, hpd, hqd, hsp]
      · simp [hda, hdb, hdc, hpv, hqv, hsv]
    · simp [evaluateSpec, foldSpec, transition, ha, hb, hc, hpd, hqd, hsp, hso, hp, hq, h0, hx, hy]
  · apply Calculator_cstr_of_fit
    · simp [hna, hnb, hnc, hpn, hqn]
    · apply evalsFit_of_few_digits _ _ 0 (by simp)
      · simp [countDigits, List.filter_cons, ha, hb, hc, hpd, hqd]
      · simp [hda, hdb, hdc, hpv, hqv]
    · simp [evaluateSpec, foldSpec, transition, ha, hb, hc, hpd, hqd, hp, hq, h0, hx, hy]

/-- C3: operator precedence is not implemented.  For digit characters `a`,
`b`, `c` and operator characters `p`, `q` among `+ - * /` with no division by
zero (`a p b` has the value `x` and `x q c` the value `y`), the result of
`Calculator` on `a p b q c`, with or without the separating spaces, is
`Int<y>`, that is `(a p b) q c`; and `1 + 2 * 3` gives `Int<9>`, not
`Int<7>`. -/
theorem C3_no_operator_precedence :
    (∀ a b c p q : Char, isDigit a = true → isDigit b = true → isDigit c = true →
      isOperator p = true → isOperator q = true →
      ∀ x y : ℤ, applyOp p (digitVal a) (digitVal b) = some x →
        applyOp q x (digitVal c) = some y →
        Calculator (cstr [a, ' ', p, ' ', b, ' ', q, ' ', c]) = some (Ty.Int y) ∧
        Calculator (cstr [a, p, b, q, c]) = some (Ty.Int y)) ∧
    Calculator (cstr "1 + 2 * 3".toList) = some (Ty.Int 9) ∧
    Calculator (cstr "1 + 2 * 3".toList) ≠ some (Ty.Int 7) := by
  refine ⟨?_, by decide, by decide⟩
  intro a b c p q ha hb hc hp hq x y hx hy
  exact three_operands a b c p q ha hb hc hp hq x y hx hy

/-- C3 at `a = '8'`, `p = '-'`, `b = '2'`, `q = '/'`, `c = '4'`: `8 - 2` is 6,
6 / 4 is 1, and the calculator gives `Int<1>` on both spellings. -/
theorem C3_no_operator_precedence_witness :
    applyOp '-' (digitVal '8') (digitVal '2') = some 6 ∧
    applyOp '/' 6 (digitVal '4') = some 1 ∧
    Calculator (cstr ['8', ' ', '-', ' ', '2', ' ', '/', ' ', '4']) = some (Ty.Int 1) ∧
    Calculator (cstr ['8', '-', '2', '/', '4']) = some (Ty.Int 1) :=
  ⟨by decide, by decide,
    C3_no_operator_precedence.1 '8' '2' '4' '-' '/' (by decide) (by decide) (by decide)
      (by decide) (by decide) 6 1 (by decide) (by decide)⟩

/-! ## Division -/

theorem neg_tmod (a b : ℤ) : Int.tmod (-a) b = -Int.tmod a b := by
  rw [Int.tmod_def, Int.tmod_def, Int.neg_tdiv]; ring

theorem tmod_abs_lt (l r : ℤ) (hr : r ≠ 0) : |Int.tmod l r| < |r| := by
  have key : ∀ a b : ℤ, 0 ≤ a → 0 < b → |Int.tmod a b| < |b| := by
    intro a b ha hb
    have h1 := Int.tmod_nonneg b ha
    have h2 := Int.tmod_lt_of_pos a hb
    rw [abs_of_nonneg h1, abs_of_pos hb]
    exact h2
  have key2 : ∀ a b : ℤ, 0 < b → |Int.tmod a b| < |b| := by
    intro a b hb
    rcases le_or_lt 0 a with ha | ha
    · exact key a b ha hb
    · have h := key (-a) b (by omega) hb
      rw [neg_tmod, abs_neg] at h
      exact h
  rcases lt_or_gt_of_ne hr with h | h
  · have h3 := key2 l (-r) (by omega)
    rw [Int.tmod_neg, abs_neg] at h3
    exact h3
  · exact key2 l r h

theorem tmod_sign (l r : ℤ) : Int.tmod l r = 0 ∨ Int.sign (Int.tmod l r) = Int.sign l := by
  have key : ∀ a b : ℤ, 0 ≤ a → 0 ≤ Int.tmod a b := fun a b ha => Int.tmod_nonneg b ha
  rcases le_or_lt 0 l with hl | hl
  · have h1 := key l r hl
    rcases eq_or_lt_of_le h1 with h | h
    · left; exact h.symm
    · right
      have hl0 : 0 < l := by
        rcases eq_or_lt_of_le hl with h0 | h0
        · rw [← h0, Int.zero_tmod] at h; exact absurd h (lt_irrefl _)
        · exact h0
      rw [Int.sign_eq_one_of_pos h, Int.sign_eq_one_of_pos hl0]
  · have h1 := key (-l) r (by omega)
    rw [neg_tmod] at h1
    rcases eq_or_lt_of_le h1 with h | h
    · left; omega
    · right
      rw [Int.sign_eq_neg_one_of_neg (by omega), Int.sign_eq_neg_one_of_neg hl]

theorem inInt_tdiv {L R : ℤ} (hL : inInt L = true) (hno : ¬ (L = INT_MIN ∧ R = -1)) :
    inInt (Int.tdiv L R) = true := by
  rw [inInt_iff] at hL ⊢
  have h := tdiv_abs_le L R
  have hab := abs_le.mp (le_trans h (abs_le.mpr ⟨by omega, by omega⟩ : |L| ≤ 2147483648))
  refine ⟨hab.1, ?_⟩
  by_contra hgt
  have heq : Int.tdiv L R = 2147483648 := by omega
  have hmul := Int.tdiv_add_tmod' L R
  have hsgn := tmod_sign L R
  by_cases hR0 : R = 0
  · subst hR0; simp at heq
  have hlt := tmod_abs_lt L R hR0
  rw [heq] at hmul h
  have hLabs : |L| = 2147483648 := by
    have : |L| ≤ 2147483648 := abs_le.mpr ⟨by omega, by omega⟩
    have h2 : |(2147483648 : ℤ)| = 2147483648 := by norm_num
    omega
  have hLeq : L = -2147483648 := by
    rcases abs_cases L with ⟨h1, _⟩ | ⟨h1, _⟩ <;> omega
  apply hno
  refine ⟨by simp [INT_MIN, hLeq], ?_⟩
  subst hLeq
  have h1 := abs_lt.mp hlt
  rcases abs_cases R with ⟨h2, h3⟩ | ⟨h2, h3⟩ <;> omega

theorem eval_div {L R : ℤ} (hL : inInt L = true) (hR : R ≠ 0)
    (hno : ¬ (L = INT_MIN ∧ R = -1)) :
    eval (Ty.Int L) (Ty.Char '/') (Ty.Int R) = some (Ty.Int (Int.tdiv L R)) := by
  have h := inInt_tdiv hL hno
  simp [eval, mkInt, hR, h]

/-- C4, the quotient that is not an `int`: `eval<Int<-2147483648>, Char<'/'>,
Int<-1>>` has two `int` operands and a divisor other than zero, and no
member `value`, because the quotient 2147483648 overflows `int`. -/
theorem C4_counterexample :
    inInt (-2147483648) = true ∧ inInt (-1) = true ∧ (-1 : ℤ) ≠ 0 ∧
    eval (Ty.Int (-2147483648)) (Ty.Char '/') (Ty.Int (-1)) = none := by
  decide

/-- C4, as amended: for all `int` values `L` and `R` with `R ≠ 0`, other than
`L = INT_MIN` with `R = -1`, the `/` rule of `eval` gives `Int<q>` for the
quotient truncated toward zero: `q * R + r = L` with `|r| < |R|` and `r` zero
or of the sign of `L`.  So `eval(-7, '/', 2)` is -3, and `Calculator` gives -3
on `1 - 8 / 2` and 4 on `9 / 2`. -/
theorem C4_division_truncates_toward_zero :
    (∀ L R : ℤ, inInt L = true → inInt R = true → R ≠ 0 → ¬ (L = INT_MIN ∧ R = -1) →
      ∃ q r : ℤ, eval (Ty.Int L) (Ty.Char '/') (Ty.Int R) = some (Ty.Int q) ∧
        q * R + r = L ∧ |r| < |R| ∧ (r = 0 ∨ Int.sign r = Int.sign L)) ∧
    eval (Ty.Int (-7)) (Ty.Char '/') (Ty.Int 2) = some (Ty.Int (-3)) ∧
    Calculator (cstr "1 - 8 / 2".toList) = some (Ty.Int (-3)) ∧
    Calculator (cstr "9 / 2".toList) = some (Ty.Int 4) := by
  refine ⟨?_, by decide, by decide, by decide⟩
  intro L R hL _ hR hno
  exact ⟨Int.tdiv L R, Int.tmod L R, eval_div hL hR hno, Int.tdiv_add_tmod' L R,
    tmod_abs_lt L R hR, tmod_sign L R⟩

/-- C4 at `L = -7`, `R = 2`: the quotient and remainder that the amended claim
gives exist. -/
theorem C4_division_truncates_toward_zero_witness :
    inInt (-7) = true ∧ inInt 2 = true ∧
    ∃ q r : ℤ, eval (Ty.Int (-7)) (Ty.Char '/') (Ty.Int 2) = some (Ty.Int q) ∧
      q * 2 + r = -7 ∧ |r| < |(2 : ℤ)| ∧ (r = 0 ∨ Int.sign r = Int.sign (-7)) :=
  ⟨by decide, by decide,
    C4_division_truncates_toward_zero.1 (-7) 2 (by decide) (by decide) (by decide)
      (by decide)⟩

/-- C5: the literal calculator scenarios of the specification: `Calculator`
gives 0 on the empty string, 7 on `7`, 4 on `9 / 2` and 6 on `1+2+3`. -/
theorem C5_literal_scenarios :
    Calculator (cstr "".toList) = some (Ty.Int 0) ∧
    Calculator (cstr "7".toList) = some (Ty.Int 7) ∧
    Calculator (cstr "9 / 2".toList) = some (Ty.Int 4) ∧
    Calculator (cstr "1+2+3".toList) = some (Ty.Int 6) := by
  decide

/-! ## Strings of digits -/

theorem digitSum_nonneg (s : List Char) (h : ∀ c ∈ s, isDigit c = true) : 0 ≤ digitSum s := by
  induction s with
  | nil => simp [digitSum]
  | cons c cs ih =>
    have h1 := digitVal_range (h c (List.mem_cons_self c cs))
    have h2 := ih fun d hd => h d (List.mem_cons_of_mem c hd)
    simp only [digitSum, List.map_cons, List.sum_cons] at h2 ⊢
    omega

theorem foldSpec_digits (s : List Char) (h : ∀ c ∈ s, isDigit c = true) :
    ∀ v : ℤ, foldSpec (v, '+') s = some (v + digitSum s, '+') := by
  induction s with
  | nil => intro v; simp [foldSpec, digitSum]
  | cons c cs ih =>
    intro v
    have hc := h c (List.mem_cons_self c cs)
    have h2 := ih (fun d hd => h d (List.mem_cons_of_mem c hd)) (v + digitVal c)
    simp only [foldSpec, transition, hc, if_true, applyOp, Option.map_some', Option.some_bind, h2,
      digitSum, List.map_cons, List.sum_cons, add_assoc]

theorem evalsFit_digits (s : List Char) (h : ∀ c ∈ s, isDigit c = true) :
    ∀ v : ℤ, 0 ≤ v → (evalsFit (v, '+') s = true ↔ (s = [] ∨ v + digitSum s ≤ 2147483647)) := by
  induction s with
  | nil => intro v _; simp [evalsFit]
  | cons c cs ih =>
    intro v hv
    have hc := h c (List.mem_cons_self c cs)
    have hcs : ∀ d ∈ cs, isDigit d = true := fun d hd => h d (List.mem_cons_of_mem c hd)
    have hd := digitVal_range hc
    have h2 := ih hcs (v + digitVal c) (by omega)
    have h3 := digitSum_nonneg cs hcs
    have h4 : digitSum (c :: cs) = digitVal c + digitSum cs := by
      simp [digitSum]
    have h5 : digitSum ([] : List Char) = 0 := rfl
    simp only [evalsFit, transition, hc, if_true, applyOp, Option.map_some', Bool.and_eq_true,
      h2, inInt_iff, h4]
    constructor
    · rintro ⟨h6, h7 | h7⟩
      · subst h7; right; rw [h5]; omega
      · right; omega
    · rintro (h6 | h6)
      · exact absurd h6 (List.cons_ne_nil c cs)
      · exact ⟨by omega, Or.inr (by omega)⟩

theorem Calculator_digits (s : List Char) (h : ∀ c ∈ s, isDigit c = true) :
    Calculator (cstr s) =
      if digitSum s ≤ 2147483647 then some (Ty.Int (digitSum s)) else none := by
  have hn : ∀ c ∈ s, c ≠ NUL := fun c hc => char_ne_NUL_of_isDigit (h c hc)
  have hfit := evalsFit_digits s h 0 (le_refl 0)
  have hfold := foldSpec_digits s h 0
  rw [Calculator_cstr s hn]
  simp only [zero_add] at hfit hfold
  by_cases hle : digitSum s ≤ 2147483647
  · have : evalsFit (0, '+') s = true := hfit.mpr (Or.inr hle)
    simp [this, hle, evaluateSpec, hfold]
  · have : ¬ evalsFit (0, '+') s = true := by
      intro hf
      rcases hfit.mp hf with h1 | h1
      · subst h1; exact hle (by simp [digitSum])
      · exact hle h1
    simp [this, hle]

theorem digitSum_replicate (n : Nat) (c : Char) :
    digitSum (List.replicate n c) = (n : ℤ) * digitVal c := by
  simp [digitSum, List.map_replicate, List.sum_replicate]

theorem Calculator_nines (n : Nat) (h : 2147483647 < (n : ℤ) * 9) :
    (∀ c ∈ List.replicate n '9', isDigit c = true) ∧
    digitSum (List.replicate n '9') = (n : ℤ) * 9 ∧
    Calculator (cstr (List.replicate n '9')) = none := by
  have hd : ∀ c ∈ List.replicate n '9', isDigit c = true := by
    intro c hc
    rw [List.eq_of_mem_replicate hc]
    decide
  have h9 : digitVal '9' = 9 := by decide
  have hs := digitSum_replicate n '9'
  rw [h9] at hs
  refine ⟨hd, hs, ?_⟩
  rw [Calculator_digits _ hd, hs, if_neg (by omega)]

theorem evaluator_digit (v : ℤ) (op c : Char) (r : Ty) (hc : isDigit c = true)
    (h : evaluator (Ty.tuple (Ty.Int v) (Ty.Char op)) (Ty.Char c) = some r) :
    ∃ w : ℤ, eval (Ty.Int v) (Ty.Char op) (Ty.Int (digitVal c)) = some (Ty.Int w) ∧
      r = Ty.tuple (Ty.Int w) (Ty.Char '+') := by
  have hstep := evaluator_accTy (v, op) c
  simp only [accTy] at hstep
  rw [hstep] at h
  rw [eval_Int]
  cases hr : applyOp op v (digitVal c) with
  | none => rw [hr] at h; exact Option.noConfusion h
  | some w =>
    rw [hr] at h
    simp only [Option.some_bind, transition, hc, if_true, hr, Option.map_some'] at h
    by_cases hfit : inInt w = true
    · simp only [hfit, if_true, Option.some.injEq] at h
      exact ⟨w, by simp [mkInt, hfit], h.symm⟩
    · simp [hfit] at h

/-- C6, the sum that is not an `int`: the string of 238609295 characters `9`
consists of digit characters only and the sum of its digit values is
2147483655, which is more than the largest `int`; `Calculator` has no
result on it. -/
theorem C6_counterexample :
    (∀ c ∈ List.replicate 238609295 '9', isDigit c = true) ∧
    digitSum (List.replicate 238609295 '9') = 2147483655 ∧
    INT_MAX < 2147483655 ∧
    Calculator (cstr (List.replicate 238609295 '9')) = none := by
  obtain ⟨h1, h2, h3⟩ := Calculator_nines 238609295 (by norm_num)
  refine ⟨h1, ?_, by decide, h3⟩
  rw [h2]; norm_num

/-- C6, as amended: numbers are single digits only.  When `evaluator` processes
a digit `c` it applies the pending operator to the digit value and resets the
pending operator to `'+'`; so for every string `s` of digit characters only,
whose sum of digit values is at most the largest `int`, the result of
`Calculator` is that sum; `12` gives `Int<3>`, not `Int<12>`. -/
theorem C6_single_digits_are_summed :
    (∀ (v : ℤ) (op c : Char) (r : Ty), isDigit c = true →
      evaluator (Ty.tuple (Ty.Int v) (Ty.Char op)) (Ty.Char c) = some r →
      ∃ w : ℤ, eval (Ty.Int v) (Ty.Char op) (Ty.Int (digitVal c)) = some (Ty.Int w) ∧
        r = Ty.tuple (Ty.Int w) (Ty.Char '+')) ∧
    (∀ s : List Char, (∀ c ∈ s, isDigit c = true) → digitSum s ≤ INT_MAX →
      Calculator (cstr s) = some (Ty.Int (digitSum s))) ∧
    Calculator (cstr "12".toList) = some (Ty.Int 3) ∧
    Calculator (cstr "12".toList) ≠ some (Ty.Int 12) := by
  refine ⟨?_, ?_, by decide, by decide⟩
  · intro v op c r hc h
    exact evaluator_digit v op c r hc h
  · intro s hs hsum
    have hsum2 : digitSum s ≤ 2147483647 := hsum
    rw [Calculator_digits s hs, if_pos hsum2]

/-- C6 at the string `12`: both characters are digits, the sum 3 is an `int`,
and the calculator gives `Int<3>`. -/
theorem C6_single_digits_are_summed_witness :
    (∀ c ∈ "12".toList, isDigit c = true) ∧ digitSum "12".toList ≤ INT_MAX ∧
    digitSum "12".toList = 3 ∧
    Calculator (cstr "12".toList) = some (Ty.Int (digitSum "12".toList)) :=
  ⟨by decide, by decide, by decide,
    C6_single_digits_are_summed.2.1 "12".toList (by decide) (by decide)⟩

/-! ## Claims on the lexer and the combinators -/

/-- C7: the lexer `to_cons` converts character by character.  For every string
`s` without a NUL inside, held in an array with its terminating NUL,
`to_cons<Str<s>>` is the `Cons`/`Nil` list of exactly `length s` atoms, the
`i`-th of which is `Char<s[i]>`; the empty string gives `Nil`; and `bar`
gives `Cons<'b', Cons<'a', Cons<'r', Nil>>>`. -/
theorem C7_to_cons_is_faithful :
    (∀ s : List Char, (∀ c ∈ s, c ≠ NUL) →
      ∃ atoms : List Ty, to_cons (cstr s) = some (ofList atoms) ∧
        atoms.length = s.length ∧ ∀ i : Nat, atoms[i]? = s[i]?.map Ty.Char) ∧
    to_cons (cstr []) = some Ty.Nil ∧
    to_cons (cstr "bar".toList) =
      some (Ty.Cons (Ty.Char 'b') (Ty.Cons (Ty.Char 'a') (Ty.Cons (Ty.Char 'r') Ty.Nil))) := by
  refine ⟨?_, by decide, by decide⟩
  intro s hs
  refine ⟨s.map Ty.Char, to_cons_cstr s hs, by simp, ?_⟩
  intro i
  simp

/-- C7 at the string `bar`: it has no NUL inside, and the list of atoms that
`to_cons` gives exists. -/
theorem C7_to_cons_is_faithful_witness :
    (∀ c ∈ "bar".toList, c ≠ NUL) ∧
    ∃ atoms : List Ty, to_cons (cstr "bar".toList) = some (ofList atoms) ∧
      atoms.length = "bar".toList.length ∧
      ∀ i : Nat, atoms[i]? = "bar".toList[i]?.map Ty.Char :=
  ⟨by decide, C7_to_cons_is_faithful.1 "bar".toList (by decide)⟩

theorem foldl_ofList (F : Ty → Ty → Option Ty) (l : List Ty) :
    ∀ acc : Ty, foldl acc F (ofList l) = l.foldlM F acc := by
  induction l with
  | nil => intro acc; rfl
  | cons x xs ih =>
    intro acc
    simp only [ofList, foldl, List.foldlM_cons, ih]
    rfl

theorem foldl_ofList_total (f : Ty → Ty → Ty) (l : List Ty) :
    ∀ acc : Ty, foldl acc (fun a x => some (f a x)) (ofList l) = some (l.foldl f acc) := by
  induction l with
  | nil => intro acc; rfl
  | cons x xs ih =>
    intro acc
    simp only [ofList, foldl, Option.some_bind, ih, List.foldl_cons]

/-- C8: `foldl` is the standard left fold.  `foldl<Acc, F, Nil>` is `Acc`;
`foldl<Acc, F, Cons<X, Xs>>` is `foldl<F<Acc, X>::value, F, Xs>`; so on the
list of `x1, ..., xn` the result is `F` applied from the left, element by
element (`List.foldlM` when `F` may have no `value`, `List.foldl` when it always
has one); and `foldl<Int<0>, add, [2, 3, 5]>` is `Int<10>`. -/
theorem C8_foldl_is_left_fold :
    (∀ (acc : Ty) (F : Ty → Ty → Option Ty), foldl acc F Ty.Nil = some acc) ∧
    (∀ (acc : Ty) (F : Ty → Ty → Option Ty) (x xs : Ty),
      foldl acc F (Ty.Cons x xs) = (F acc x).bind fun acc1 => foldl acc1 F xs) ∧
    (∀ (acc : Ty) (F : Ty → Ty → Option Ty) (l : List Ty),
      foldl acc F (ofList l) = l.foldlM F acc) ∧
    (∀ (acc : Ty) (f : Ty → Ty → Ty) (l : List Ty),
      foldl acc (fun a x => some (f a x)) (ofList l) = some (l.foldl f acc)) ∧
    foldl (Ty.Int 0) add (ofList [Ty.Int 2, Ty.Int 3, Ty.Int 5]) = some (Ty.Int 10) := by
  refine ⟨fun _ _ => rfl, fun _ _ _ _ => rfl, ?_, ?_, by decide⟩
  · intro acc F l; exact foldl_ofList F l acc
  · intro acc f l; exact foldl_ofList_total f l acc

theorem map_ofList_total (f : Ty → Ty) (l : List Ty) :
    map (fun x => some (f x)) (ofList l) = some (ofList (l.map f)) := by
  induction l with
  | nil => rfl
  | cons x xs ih => simp only [ofList, map, Option.some_bind, ih, List.map_cons]

theorem map_ofList (F : Ty → Option Ty) (l : List Ty) :
    map F (ofList l) = (l.mapM F).map ofList := by
  induction l with
  | nil => rfl
  | cons x xs ih =>
    simp only [ofList, map, ih, List.mapM_cons]
    cases F x with
    | none => rfl
    | some y =>
      cases List.mapM F xs with
      | none => rfl
      | some ys => rfl

/-- C9: `map` transforms element by element and keeps order and length.
`map<F, Nil>` is `Nil`; `map<F, Cons<X, Xs>>` is `Cons<F<X>::value,
map<F, Xs>::value>`; so for every `f` and every list, `map` gives the list of
the same length whose `i`-th element is `f` of the `i`-th element (and for an
`F` that may have no `value`, the list of the values when all exist); and
`map<add_two, [Int<2>, Int<3>, Int<5>]>` is `[Int<4>, Int<5>, Int<7>]`. -/
theorem C9_map_is_elementwise :
    (∀ F : Ty → Option Ty, map F Ty.Nil = some Ty.Nil) ∧
    (∀ (F : Ty → Option Ty) (x xs : Ty),
      map F (Ty.Cons x xs) =
        (F x).bind fun y => (map F xs).bind fun ys => some (Ty.Cons y ys)) ∧
    (∀ (f : Ty → Ty) (l : List Ty),
      ∃ ys : List Ty, map (fun x => some (f x)) (ofList l) = some (ofList ys) ∧
        ys.length = l.length ∧ ∀ i : Nat, ys[i]? = l[i]?.map f) ∧
    (∀ (F : Ty → Option Ty) (l : List Ty), map F (ofList l) = (l.mapM F).map ofList) ∧
    map add_two (ofList [Ty.Int 2, Ty.Int 3, Ty.Int 5])
      = some (ofList [Ty.Int 4, Ty.Int 5, Ty.Int 7]) := by
  refine ⟨fun _ => rfl, fun _ _ _ => rfl, ?_, ?_, by decide⟩
  · intro f l
    exact ⟨l.map f, map_ofList_total f l, by simp, fun i => by simp⟩
  · intro F l; exact map_ofList F l

/-! ## Fibonacci -/

theorem fibFuel_succ (fuel : Nat) :
    ∀ (N v : ℤ), fibFuel fuel N = some v → fibFuel (fuel + 1) N = some v := by
  induction fuel with
  | zero => intro N v h; exact Option.noConfusion h
  | succ k ih =>
    intro N v h
    rw [fibFuel] at h ⊢
    split_ifs at h ⊢ with h1 h0
    · exact h
    · exact h
    · cases ha : fibFuel k (N - 1) with
      | none => rw [ha] at h; exact Option.noConfusion h
      | some a =>
        cases hb : fibFuel k (N - 2) with
        | none => rw [ha, hb] at h; exact Option.noConfusion h
        | some b =>
          rw [ha, hb] at h
          rw [ih _ _ ha, ih _ _ hb]
          exact h

theorem fibFuel_of_le {fuel fuel1 : Nat} (hle : fuel ≤ fuel1) {N v : ℤ}
    (h : fibFuel fuel N = some v) : fibFuel fuel1 N = some v := by
  induction hle with
  | refl => exact h
  | step _ ih => exact fibFuel_succ _ _ _ ih

theorem wrapInt_of_inInt {n : ℤ} (h : inInt n = true) : wrapInt n = n := by
  rw [inInt_iff] at h
  unfold wrapInt INT_MIN
  rw [Int.emod_eq_of_lt (by omega) (by omega)]
  omega

theorem fib_46 : Nat.fib 46 = 1836311903 := by norm_num

theorem fibFuel_natCast (n : Nat) :
    (n ≤ 46 → fibFuel (n + 1) (n : ℤ) = some ((Nat.fib n : ℕ) : ℤ)) ∧
    (n + 1 ≤ 46 → fibFuel (n + 2) ((n + 1 : ℕ) : ℤ) = some ((Nat.fib (n + 1) : ℕ) : ℤ)) := by
  induction n with
  | zero => exact ⟨fun _ => by decide, fun _ => by decide⟩
  | succ k ih =>
    refine ⟨ih.2, ?_⟩
    intro hk
    have h1 := ih.2 (by omega)
    have h0 := fibFuel_succ _ _ _ (ih.1 (by omega))
    have e1 : ((k + 1 + 1 : ℕ) : ℤ) - 1 = ((k + 1 : ℕ) : ℤ) := by push_cast; ring
    have e2 : ((k + 1 + 1 : ℕ) : ℤ) - 2 = (k : ℤ) := by push_cast; ring
    have n1 : ¬ ((k + 1 + 1 : ℕ) : ℤ) = 1 := by omega
    have n0 : ¬ ((k + 1 + 1 : ℕ) : ℤ) = 0 := by omega
    have hmono : Nat.fib (k + 2) ≤ Nat.fib 46 := Nat.fib_mono (by omega)
    rw [fib_46] at hmono
    have hsum : ((Nat.fib (k + 1) : ℕ) : ℤ) + ((Nat.fib k : ℕ) : ℤ) = ((Nat.fib (k + 2) : ℕ) : ℤ) := by
      rw [Nat.fib_add_two]; push_cast; ring
    have hfit : inInt ((Nat.fib (k + 2) : ℕ) : ℤ) = true := by
      rw [inInt_iff]; omega
    rw [fibFuel, if_neg n1, if_neg n0, e1, e2, h1, h0]
    simp only [Option.some_bind, hsum, wrapInt_of_inInt hfit]

theorem fib_natCast (n : Nat) (h : n ≤ 46) : fib (n : ℤ) = some ((Nat.fib n : ℕ) : ℤ) := by
  unfold fib
  rw [Int.toNat_natCast]
  exact (fibFuel_natCast n).1 h

theorem fib_recurrence (n : ℤ) (h2 : 2 ≤ n) (h46 : n ≤ 46) :
    ∃ a b : ℤ, fib (n - 1) = some a ∧ fib (n - 2) = some b ∧ fib n = some (a + b) := by
  obtain ⟨m, rfl⟩ := Int.eq_ofNat_of_zero_le (by omega : 0 ≤ n)
  obtain ⟨k, rfl⟩ : ∃ k, m = k + 2 := ⟨m - 2, by omega⟩
  have e1 : ((k + 2 : ℕ) : ℤ) - 1 = ((k + 1 : ℕ) : ℤ) := by push_cast; ring
  have e2 : ((k + 2 : ℕ) : ℤ) - 2 = (k : ℤ) := by push_cast; ring
  refine ⟨((Nat.fib (k + 1) : ℕ) : ℤ), ((Nat.fib k : ℕ) : ℤ), ?_, ?_, ?_⟩
  · rw [e1]; exact fib_natCast _ (by omega)
  · rw [e2]; exact fib_natCast _ (by omega)
  · rw [fib_natCast _ (by omega), Nat.fib_add_two]; push_cast; ring_nf

/-- C10: `fib` satisfies the Fibonacci recurrence, the explicit specialisations
being chosen before the general rule: `fib<0>()` is 0, `fib<1>()` is 1, and for
every `n` with `2 ≤ n ≤ 30`, `fib<n>()` returns the sum of what `fib<n-1>()`
and `fib<n-2>()` return; `fib<7>()` is 13. -/
theorem C10_fib_recurrence :
    fib 0 = some 0 ∧ fib 1 = some 1 ∧
    (∀ n : ℤ, 2 ≤ n → n ≤ 30 →
      ∃ a b : ℤ, fib (n - 1) = some a ∧ fib (n - 2) = some b ∧ fib n = some (a + b)) ∧
    fib 7 = some 13 := by
  refine ⟨by decide, by decide, ?_, by decide⟩
  intro n h2 h30
  exact fib_recurrence n h2 (by omega)

/-- C10 at `n = 7`: `fib<6>()` and `fib<5>()` return values whose sum
`fib<7>()` returns. -/
theorem C10_fib_recurrence_witness :
    ∃ a b : ℤ, fib (7 - 1) = some a ∧ fib (7 - 2) = some b ∧ fib 7 = some (a + b) :=
  C10_fib_recurrence.2.2.1 7 (by decide) (by decide)


/-! ## Squared length -/

theorem intConst_of_inInt {n : ℤ} (h : inInt n = true) : intConst n = some n := by
  simp [intConst, h]

theorem len_sq_Vec2 (x y : ℤ) (h : x * x + y * y ≤ INT_MAX) :
    len_sq (Ty.Vec2 x y) = some (x * x + y * y) := by
  have hx := mul_self_nonneg x
  have hy := mul_self_nonneg y
  have h1 : x * x + y * y ≤ 2147483647 := h
  have hxx : inInt (x * x) = true := by rw [inInt_iff]; omega
  have hyy : inInt (y * y) = true := by rw [inInt_iff]; omega
  have hs : inInt (x * x + y * y) = true := by rw [inInt_iff]; omega
  simp only [len_sq, intConst_of_inInt hxx, intConst_of_inInt hyy, Option.some_bind,
    intConst_of_inInt hs]

/-- C11, the square that is not an `int`: `Vec2<46341, 0>` has two `int`
components and `46341 * 46341 = 2147488281` overflows `int`, so
`len_sq<Vec2<46341, 0>>::value` is not a constant expression and has no
value. -/
theorem C11_counterexample :
    inInt 46341 = true ∧ inInt 0 = true ∧
    (46341 : ℤ) * 46341 + 0 * 0 = 2147488281 ∧
    len_sq (Ty.Vec2 46341 0) = none := by
  decide

/-- C11, as amended: for all integers `x` and `y` with `x * x + y * y` at most
the largest `int`, `len_sq` applied to `Vec2<x, y>` is `x * x + y * y`; and
`len_sq<Vec2<3, 4>>::value` is 25. -/
theorem C11_len_sq_is_sum_of_squares :
    (∀ x y : ℤ, x * x + y * y ≤ INT_MAX → len_sq (Ty.Vec2 x y) = some (x * x + y * y)) ∧
    len_sq (Ty.Vec2 3 4) = some 25 := by
  refine ⟨?_, by decide⟩
  intro x y h
  exact len_sq_Vec2 x y h

/-- C11 at `x = -3`, `y = 4`: the sum of the squares, 25, is an `int` and is
the value of `len_sq`. -/
theorem C11_len_sq_is_sum_of_squares_witness :
    (-3 : ℤ) * (-3) + 4 * 4 ≤ INT_MAX ∧
    len_sq (Ty.Vec2 (-3) 4) = some ((-3) * (-3) + 4 * 4) :=
  ⟨by decide, C11_len_sq_is_sum_of_squares.1 (-3) 4 (by decide)⟩

/-! ## Termination of `fib` -/

theorem fibFuel_terminates (n : Nat) :
    (∃ v : ℤ, fibFuel (n + 1) (n : ℤ) = some v) ∧
    (∃ v : ℤ, fibFuel (n + 2) ((n + 1 : ℕ) : ℤ) = some v) := by
  induction n with
  | zero => exact ⟨⟨0, by decide⟩, ⟨1, by decide⟩⟩
  | succ k ih =>
    refine ⟨ih.2, ?_⟩
    obtain ⟨a, ha⟩ := ih.2
    obtain ⟨b, hb⟩ := ih.1
    have hb2 := fibFuel_succ _ _ _ hb
    have e1 : ((k + 1 + 1 : ℕ) : ℤ) - 1 = ((k + 1 : ℕ) : ℤ) := by push_cast; ring
    have e2 : ((k + 1 + 1 : ℕ) : ℤ) - 2 = (k : ℤ) := by push_cast; ring
    have n1 : ¬ ((k + 1 + 1 : ℕ) : ℤ) = 1 := by omega
    have n0 : ¬ ((k + 1 + 1 : ℕ) : ℤ) = 0 := by omega
    refine ⟨wrapInt (a + b), ?_⟩
    rw [fibFuel, if_neg n1, if_neg n0, e1, e2, ha, hb2]
    rfl

theorem fib_terminates (N : ℤ) (h : 0 ≤ N) : ∃ v : ℤ, fib N = some v := by
  obtain ⟨n, rfl⟩ := Int.eq_ofNat_of_zero_le h
  unfold fib
  rw [Int.toNat_natCast]
  exact (fibFuel_terminates n).1

theorem fibArgs_nonneg (fuel : Nat) :
    ∀ N : ℤ, 0 ≤ N → ∀ M ∈ fibArgs fuel N, 0 ≤ M := by
  induction fuel with
  | zero =>
    intro N hN M hM
    simp only [fibArgs, List.mem_singleton] at hM
    omega
  | succ k ih =>
    intro N hN M hM
    rw [fibArgs] at hM
    split_ifs at hM with h1 h0
    · simp only [List.mem_singleton] at hM; omega
    · simp only [List.mem_singleton] at hM; omega
    · simp only [List.mem_cons, List.mem_append] at hM
      rcases hM with hM | hM | hM
      · omega
      · exact ih (N - 1) (by omega) M hM
      · exact ih (N - 2) (by omega) M hM

theorem fibFuel_neg (fuel : Nat) : ∀ N : ℤ, N < 0 → fibFuel fuel N = none := by
  induction fuel with
  | zero => intro N _; rfl
  | succ k ih =>
    intro N hN
    rw [fibFuel, if_neg (by omega), if_neg (by omega), ih (N - 1) (by omega)]
    rfl

/-- C12: the resolution of `fib<N>` terminates for every `N ≥ 0`.  With the
instantiation depth `N + 1` the function `fib<N>()` returns a value, so every
chain `fib<N>`, `fib<N-1>` or `fib<N-2>`, ... ends in one of the explicit
specialisations `fib<1>` and `fib<0>`; more depth gives the same value; and no
specialisation reached from `fib<N>`, at any depth, has a negative
argument. -/
theorem C12_fib_terminates :
    ∀ N : ℤ, 0 ≤ N →
      (∃ v : ℤ, fibFuel (N.toNat + 1) N = some v ∧
        ∀ fuel : Nat, N.toNat + 1 ≤ fuel → fibFuel fuel N = some v) ∧
      (∀ (fuel : Nat) (M : ℤ), M ∈ fibArgs fuel N → 0 ≤ M) := by
  intro N hN
  obtain ⟨v, hv⟩ := fib_terminates N hN
  refine ⟨⟨v, hv, ?_⟩, ?_⟩
  · intro fuel hle
    exact fibFuel_of_le hle hv
  · intro fuel M hM
    exact fibArgs_nonneg fuel N hN M hM

/-- C12 at `N = 5`: `fib<5>()` returns with the depth 6, and the
specialisations it reaches down to that depth have arguments from 5 down to
0. -/
theorem C12_fib_terminates_witness :
    fibFuel 6 5 = some 5 ∧
    fibArgs 6 5 = [5, 4, 3, 2, 1, 0, 1, 2, 1, 0, 3, 2, 1, 0, 1] ∧
    ((∃ v : ℤ, fibFuel ((5 : ℤ).toNat + 1) 5 = some v ∧
        ∀ fuel : Nat, (5 : ℤ).toNat + 1 ≤ fuel → fibFuel fuel 5 = some v) ∧
      (∀ (fuel : Nat) (M : ℤ), M ∈ fibArgs fuel 5 → 0 ≤ M)) :=
  ⟨by decide, by decide, C12_fib_terminates 5 (by decide)⟩

/-! ## Rendering -/

theorem formatInt_eq_toString (n : ℤ) : formatInt n = toString n := by
  cases n with
  | ofNat m =>
    have h : ¬ (Int.ofNat m < 0) := by simp
    simp only [formatInt, if_neg h]
    rfl
  | negSucc m =>
    have h : Int.negSucc m < 0 := Int.negSucc_lt_zero m
    simp only [formatInt, if_pos h]
    rfl

theorem show_value_ofList (l : List Ty) :
    show_value (ofList l) = (l.mapM show_value).map renderList := by
  induction l with
  | nil => rfl
  | cons x xs ih =>
    simp only [ofList, show_value, ih, List.mapM_cons]
    cases show_value x with
    | none => rfl
    | some a =>
      cases List.mapM show_value xs with
      | none => rfl
      | some bs => rfl

theorem show_value_charList (s : List Char) :
    show_value (charList s) =
      some (renderList (s.map fun c => "'" ++ String.singleton c ++ "'")) := by
  induction s with
  | nil => rfl
  | cons c cs ih =>
    simp only [charList, List.map_cons, ofList, show_value, Option.some_bind] at ih ⊢
    rw [ih]
    rfl

/-- C13: `show` renders a list in the angle-bracket form.  `show<Nil>` is
`Nil`; `show<Cons<X, Xs>>` is `Cons<`, what `show<X>` gives, a comma and a
blank, what `show<Xs>` gives, and `>`; `show<Char<C>>` is the character
between single quotes; `show<Int<N>>` is `N` in decimal (as `toString`
writes it); so the list of the characters of a string is rendered element by
element, and the list of `f`, `o`, `o` as
`Cons<'f', Cons<'o', Cons<'o', Nil>>>`. -/
theorem C13_show_renders_lists :
    show_value Ty.Nil = some "Nil" ∧
    (∀ x xs : Ty, show_value (Ty.Cons x xs) =
      (show_value x).bind fun a => (show_value xs).bind fun b =>
        some ("Cons<" ++ a ++ ", " ++ b ++ ">")) ∧
    (∀ c : Char, show_value (Ty.Char c) = some ("'" ++ String.singleton c ++ "'")) ∧
    (∀ n : ℤ, show_value (Ty.Int n) = some (toString n)) ∧
    show_value (Ty.Int 25) = some "25" ∧ show_value (Ty.Int (-3)) = some "-3" ∧
    (∀ s : List Char, show_value (charList s) =
      some (renderList (s.map fun c => "'" ++ String.singleton c ++ "'"))) ∧
    show_value (Ty.Cons (Ty.Char 'f') (Ty.Cons (Ty.Char 'o') (Ty.Cons (Ty.Char 'o') Ty.Nil)))
      = some "Cons<'f', Cons<'o', Cons<'o', Nil>>>" := by
  refine ⟨rfl, fun _ _ => rfl, fun _ => rfl, ?_, by decide, by decide, ?_, by decide⟩
  · intro n
    simp only [show_value, formatInt_eq_toString]
  · intro s
    exact show_value_charList s

/-- C14, the brackets of the rendering: `show<Cons<Char<'a'>, Nil>>` is
`Cons<'a', Nil>`, with angle brackets, and not `Cons('a', Nil)`. -/
theorem C14_counterexample :
    show_value (Ty.Cons (Ty.Char 'a') Ty.Nil) = some "Cons<'a', Nil>" ∧
    show_value (Ty.Char 'a') = some "'a'" ∧ show_value Ty.Nil = some "Nil" ∧
    show_value (Ty.Cons (Ty.Char 'a') Ty.Nil) ≠ some ("Cons(" ++ "'a'" ++ ", " ++ "Nil" ++ ")") := by
  decide

/-- C14, as amended: `show` renders a list in the angle-bracket form
`Cons<a, Cons<b, ... Nil>>`: whenever `show<X>` gives `a` and `show<Xs>` gives
`b`, `show<Cons<X, Xs>>` gives `Cons<a, b>`; `show<Nil>` gives `Nil`; and a
list whose elements can all be shown is rendered from their renderings,
nested to the right. -/
theorem C14_show_uses_angle_brackets :
    (∀ (x xs : Ty) (a b : String), show_value x = some a → show_value xs = some b →
      show_value (Ty.Cons x xs) = some ("Cons<" ++ a ++ ", " ++ b ++ ">")) ∧
    show_value Ty.Nil = some "Nil" ∧
    (∀ l : List Ty, show_value (ofList l) = (l.mapM show_value).map renderList) := by
  refine ⟨?_, rfl, show_value_ofList⟩
  intro x xs a b ha hb
  simp only [show_value, ha, hb, Option.some_bind]

/-- C14 at `X = Int<2>` and `Xs = Cons<Int<3>, Nil>`: the renderings are `2`
and `Cons<3, Nil>`, and the list is rendered as `Cons<2, Cons<3, Nil>>`. -/
theorem C14_show_uses_angle_brackets_witness :
    show_value (Ty.Int 2) = some "2" ∧
    show_value (Ty.Cons (Ty.Int 3) Ty.Nil) = some "Cons<3, Nil>" ∧
    show_value (Ty.Cons (Ty.Int 2) (Ty.Cons (Ty.Int 3) Ty.Nil))
      = some ("Cons<" ++ "2" ++ ", " ++ "Cons<3, Nil>" ++ ">") :=
  ⟨by decide, by decide,
    C14_show_uses_angle_brackets.1 (Ty.Int 2) (Ty.Cons (Ty.Int 3) Ty.Nil) "2" "Cons<3, Nil>"
      (by decide) (by decide)⟩

/-- C15: `ext` extends a two-component value with a third component and keeps
the first two: `ext<Vec2<X, Y>, Z>` is `Vec3<X, Y, Z>` for all `X`, `Y`, `Z`;
`show` of it is `Vec3<X, Y, Z>` with the three integers in decimal (as
`toString` writes them); and `show<ext<Vec2<1, 2>, 3>::value>` is
`Vec3<1, 2, 3>`. -/
theorem C15_ext_adds_third_component :
    (∀ x y z : ℤ, ext (Ty.Vec2 x y) z = some (Ty.Vec3 x y z)) ∧
    (∀ x y z : ℤ, (ext (Ty.Vec2 x y) z).bind show_value =
      some ("Vec3<" ++ toString x ++ ", " ++ toString y ++ ", " ++ toString z ++ ">")) ∧
    (ext (Ty.Vec2 1 2) 3).bind show_value = some "Vec3<1, 2, 3>" ∧
    (ext (Ty.Vec2 (-7) 0) 2147483647).bind show_value = some "Vec3<-7, 0, 2147483647>" := by
  refine ⟨fun _ _ _ => rfl, ?_, by decide, by decide⟩
  intro x y z
  simp only [ext, Option.some_bind, show_value, formatInt_eq_toString]

/-! ## Operators in a row -/

theorem foldSpec_append (s t : List Char) :
    ∀ acc : ℤ × Char, foldSpec acc (s ++ t) = (foldSpec acc s).bind fun a => foldSpec a t := by
  induction s with
  | nil => intro acc; rfl
  | cons c cs ih =>
    intro acc
    rw [List.cons_append]
    simp only [foldSpec]
    cases transition acc c with
    | none => rfl
    | some a => simp only [Option.some_bind]; exact ih a

theorem transition_operator (acc : ℤ × Char) {p : Char} (hp : isOperator p = true) :
    transition acc p = some (acc.1, p) := by
  simp [transition, not_isDigit_of_isOperator hp, hp]

theorem foldSpec_operator_pair (s t : List Char) {p q : Char} (hp : isOperator p = true)
    (hq : isOperator q = true) (acc : ℤ × Char) :
    foldSpec acc (s ++ [p, q] ++ t) = foldSpec acc (s ++ [q] ++ t) := by
  rw [List.append_assoc, List.append_assoc, foldSpec_append, foldSpec_append]
  cases foldSpec acc s with
  | none => rfl
  | some a =>
    simp only [Option.some_bind, List.cons_append, List.nil_append, foldSpec,
      transition_operator _ hp, transition_operator _ hq]

theorem foldSpec_trailing_operator (s : List Char) {p : Char} (hp : isOperator p = true)
    (acc : ℤ × Char) :
    (foldSpec acc (s ++ [p])).map Prod.fst = (foldSpec acc s).map Prod.fst := by
  rw [foldSpec_append]
  cases foldSpec acc s with
  | none => rfl
  | some a =>
    simp only [Option.some_bind, foldSpec, transition_operator _ hp, Option.map_some']

theorem Calculator_operator_pair_of_fit (s t : List Char) {p q : Char}
    (hp : isOperator p = true) (hq : isOperator q = true)
    (hs : ∀ c ∈ s, c ≠ NUL) (ht : ∀ c ∈ t, c ≠ NUL)
    (h1 : evalsFit (0, '+') (s ++ [p, q] ++ t) = true)
    (h2 : evalsFit (0, '+') (s ++ [q] ++ t) = true) :
    Calculator (cstr (s ++ [p, q] ++ t)) = Calculator (cstr (s ++ [q] ++ t)) := by
  have hpn : p ≠ NUL := by intro h; subst h; revert hp; decide
  have hqn : q ≠ NUL := by intro h; subst h; revert hq; decide
  have n1 : ∀ c ∈ s ++ [p, q] ++ t, c ≠ NUL := by
    intro c hc
    simp only [List.mem_append, List.mem_cons, List.mem_singleton, List.not_mem_nil,
      or_false] at hc
    rcases hc with (hc | hc | hc) | hc
    · exact hs c hc
    · rw [hc]; exact hpn
    · rw [hc]; exact hqn
    · exact ht c hc
  have n2 : ∀ c ∈ s ++ [q] ++ t, c ≠ NUL := by
    intro c hc
    simp only [List.mem_append, List.mem_singleton] at hc
    rcases hc with (hc | hc) | hc
    · exact hs c hc
    · rw [hc]; exact hqn
    · exact ht c hc
  rw [Calculator_cstr _ n1, Calculator_cstr _ n2, if_pos h1, if_pos h2]
  simp only [evaluateSpec, foldSpec_operator_pair s t hp hq]

/-- C16, at the inputs `9*9*9*9*9*9*9*9*9**1` and `9*9*9*9*9*9*9*9*9**`: on
`2 * - 3` only the last operator counts and `Calculator` gives `Int<-1>`.
But with `s = 9*9*9*9*9*9*9*9*9`, `p = q = '*'` and `t = 1`, `Calculator`
gives `Int<387420489>` on `s ++ [q] ++ t` and has no result on
`s ++ [p, q] ++ t`; and with `s = 9*9*9*9*9*9*9*9*9*` and `p = '*'` it gives
`Int<387420489>` on `s` and has no result on `s ++ [p]`: for the second `*`
the evaluator instantiates `eval<Int<387420489>, Char<'*'>, Int<-6>>`, whose
product is not an `int`. -/
theorem C16_operator_after_operator_breaks_result :
    Calculator (cstr "2 * - 3".toList) = some (Ty.Int (-1)) ∧
    Calculator (cstr ("9*9*9*9*9*9*9*9*9".toList ++ ['*'] ++ "1".toList))
      = some (Ty.Int 387420489) ∧
    Calculator (cstr ("9*9*9*9*9*9*9*9*9".toList ++ ['*', '*'] ++ "1".toList)) = none ∧
    Calculator (cstr "9*9*9*9*9*9*9*9*9*".toList) = some (Ty.Int 387420489) ∧
    Calculator (cstr ("9*9*9*9*9*9*9*9*9*".toList ++ ['*'])) = none ∧
    evaluator (Ty.tuple (Ty.Int 387420489) (Ty.Char '*')) (Ty.Char '*') = none ∧
    eval (Ty.Int 387420489) (Ty.Char '*') (Ty.Int (-6)) = none := by
  decide

/-! ## The pending operator -/

theorem foldSpec_isOperator (s : List Char) :
    ∀ acc a : ℤ × Char, isOperator acc.2 = true → foldSpec acc s = some a →
      isOperator a.2 = true := by
  induction s with
  | nil =>
    intro acc a hop h
    simp only [foldSpec, Option.some.injEq] at h
    subst h; exact hop
  | cons c cs ih =>
    intro acc a hop h
    simp only [foldSpec] at h
    cases ht : transition acc c with
    | none => rw [ht] at h; exact Option.noConfusion h
    | some acc1 =>
      rw [ht] at h
      exact ih acc1 a (transition_isOperator hop ht) h

theorem reachable_accumulator (s : List Char) (acc : Ty)
    (h : foldl (Ty.tuple (Ty.Int 0) (Ty.Char '+')) evaluator (charList s) = some acc) :
    ∃ (v : ℤ) (op : Char), acc = Ty.tuple (Ty.Int v) (Ty.Char op) ∧ isOperator op = true := by
  have hf := foldl_evaluator s (0, '+') (by decide)
  simp only [accTy] at hf
  rw [hf] at h
  by_cases hfit : evalsFit (0, '+') s = true
  · rw [if_pos hfit] at h
    cases hs : foldSpec (0, '+') s with
    | none => rw [hs] at h; exact Option.noConfusion h
    | some a =>
      rw [hs] at h
      simp only [Option.map_some', Option.some.injEq] at h
      exact ⟨a.1, a.2, h.symm, foldSpec_isOperator s (0, '+') a (by decide) hs⟩
  · rw [if_neg hfit] at h
    exact Option.noConfusion h

theorem evalMatches_of_isOperator {op : Char} (hop : isOperator op = true) (v R : ℤ) :
    evalMatches (Ty.Int v) (Ty.Char op) (Ty.Int R) = true := by
  simpa [evalMatches, isOperator] using hop

theorem eval_none_of_isOperator {op : Char} (hop : isOperator op = true) (v R : ℤ)
    (h : eval (Ty.Int v) (Ty.Char op) (Ty.Int R) = none) :
    (op = '/' ∧ R = 0) ∨ ∃ r : ℤ, applyOp op v R = some r ∧ inInt r = false := by
  rw [eval_Int] at h
  cases hr : applyOp op v R with
  | none =>
    left
    rw [isOperator_iff] at hop
    rcases hop with h1 | h1 | h1 | h1 <;> subst h1
    · simp [applyOp] at hr
    · simp [applyOp] at hr
    · simp [applyOp] at hr
    · by_cases hR : R = 0
      · exact ⟨rfl, hR⟩
      · simp [applyOp, hR] at hr
  | some r =>
    right
    rw [hr] at h
    refine ⟨r, rfl, ?_⟩
    by_contra hfit
    rw [Bool.not_eq_false] at hfit
    simp [mkInt, hfit] at h

/-- C17: in every accumulator that the fold of `Calculator` reaches from
`std::tuple<Int<0>, Char<'+'>>`, over any input string, the pending operator
is one of `+ - * /`.  So the accumulator is a `std::tuple<Int<v>, Char<op>>`
that `get_result` matches; a specialisation of `eval` matches `Int<v>`,
`Char<op>` and the `Int` of any character (and any other `Int`); and `eval`
has no `value` there only by the arithmetic: a division by zero, or a result
that is not an `int`. -/
theorem C17_pending_operator_invariant :
    ∀ (s : List Char) (acc : Ty),
      foldl (Ty.tuple (Ty.Int 0) (Ty.Char '+')) evaluator (charList s) = some acc →
      ∃ (v : ℤ) (op : Char), acc = Ty.tuple (Ty.Int v) (Ty.Char op) ∧
        (op = '+' ∨ op = '-' ∨ op = '*' ∨ op = '/') ∧
        get_result acc = some (Ty.Int v) ∧
        (∀ c : Char, ∃ d : ℤ, to_digit (Ty.Char c) = some (Ty.Int d) ∧
          evalMatches (Ty.Int v) (Ty.Char op) (Ty.Int d) = true) ∧
        (∀ R : ℤ, evalMatches (Ty.Int v) (Ty.Char op) (Ty.Int R) = true) ∧
        (∀ R : ℤ, eval (Ty.Int v) (Ty.Char op) (Ty.Int R) = none →
          (op = '/' ∧ R = 0) ∨ ∃ r : ℤ, applyOp op v R = some r ∧ inInt r = false) := by
  intro s acc h
  obtain ⟨v, op, hacc, hop⟩ := reachable_accumulator s acc h
  refine ⟨v, op, hacc, (isOperator_iff op).mp hop, ?_, ?_, ?_, ?_⟩
  · rw [hacc]; rfl
  · intro c
    exact ⟨digitVal c, to_digit_Char c, evalMatches_of_isOperator hop v _⟩
  · intro R
    exact evalMatches_of_isOperator hop v R
  · intro R hR
    exact eval_none_of_isOperator hop v R hR

/-- C17 at the string `8 /`: the fold reaches `std::tuple<Int<8>, Char<'/'>>`,
whose pending operator is `/`. -/
theorem C17_pending_operator_invariant_witness :
    foldl (Ty.tuple (Ty.Int 0) (Ty.Char '+')) evaluator (charList "8 /".toList)
      = some (Ty.tuple (Ty.Int 8) (Ty.Char '/')) ∧
    ∃ (v : ℤ) (op : Char), Ty.tuple (Ty.Int 8) (Ty.Char '/') = Ty.tuple (Ty.Int v) (Ty.Char op) ∧
      (op = '+' ∨ op = '-' ∨ op = '*' ∨ op = '/') ∧
      get_result (Ty.tuple (Ty.Int 8) (Ty.Char '/')) = some (Ty.Int v) ∧
      (∀ c : Char, ∃ d : ℤ, to_digit (Ty.Char c) = some (Ty.Int d) ∧
        evalMatches (Ty.Int v) (Ty.Char op) (Ty.Int d) = true) ∧
      (∀ R : ℤ, evalMatches (Ty.Int v) (Ty.Char op) (Ty.Int R) = true) ∧
      (∀ R : ℤ, eval (Ty.Int v) (Ty.Char op) (Ty.Int R) = none →
        (op = '/' ∧ R = 0) ∨ ∃ r : ℤ, applyOp op v R = some r ∧ inInt r = false) :=
  ⟨by decide, C17_pending_operator_invariant "8 /".toList _ (by decide)⟩

/-! ## Division by zero -/

theorem digitVal_eq_zero_iff (c : Char) : digitVal c = 0 ↔ c = '0' := by
  constructor
  · intro h
    apply eq_of_charVal_eq
    unfold digitVal at h
    omega
  · intro h; subst h; decide

theorem applyOp_eq_none_iff {op : Char} (hop : isOperator op = true) (v d : ℤ) :
    applyOp op v d = none ↔ op = '/' ∧ d = 0 := by
  rw [isOperator_iff] at hop
  rcases hop with h | h | h | h <;> subst h
  · simp [applyOp]
  · simp [applyOp]
  · simp [applyOp]
  · by_cases hd : d = 0 <;> simp [applyOp, hd]

theorem foldSpec_eq_none_iff (s : List Char) :
    ∀ (v : ℤ) (op : Char), isOperator op = true →
      (foldSpec (v, op) s = none ↔ zeroAfterSlash op s = true) := by
  induction s with
  | nil => intro v op _; simp [foldSpec, zeroAfterSlash]
  | cons c cs ih =>
    intro v op hop
    by_cases hd : isDigit c = true
    · have hnone := applyOp_eq_none_iff hop v (digitVal c)
      rw [digitVal_eq_zero_iff] at hnone
      cases hr : applyOp op v (digitVal c) with
      | none =>
        have h2 := hnone.mp hr
        have h4 : (decide (op = '/') && decide (c = '0')) = true := by
          simp [h2.1, h2.2]
        simp only [foldSpec, zeroAfterSlash, transition, hd, if_true, hr, Option.map_none',
          Option.none_bind, h4, Bool.true_or]
      | some r =>
        have h2 : ¬ (op = '/' ∧ c = '0') := by
          intro h3
          rw [hnone.mpr h3] at hr
          exact Option.noConfusion hr
        have h4 : (decide (op = '/') && decide (c = '0')) = false := by
          simpa using h2
        have h5 := ih r '+' (by decide)
        simp only [foldSpec, zeroAfterSlash, transition, hd, if_true, hr, Option.map_some',
          Option.some_bind, h4, Bool.false_or]
        exact h5
    · rw [Bool.not_eq_true] at hd
      by_cases ho : isOperator c = true
      · have h5 := ih v c ho
        simp only [foldSpec, zeroAfterSlash, transition, hd, ho, Bool.false_eq_true, if_false,
          if_true, Option.some_bind]
        exact h5
      · rw [Bool.not_eq_true] at ho
        have h5 := ih v op hop
        simp only [foldSpec, zeroAfterSlash, transition, hd, ho, Bool.false_eq_true, if_false,
          Option.some_bind]
        exact h5

theorem evaluateSpec_eq_none_iff (s : List Char) :
    evaluateSpec s = none ↔ zeroAfterSlash '+' s = true := by
  rw [← foldSpec_eq_none_iff s 0 '+' (by decide)]
  simp [evaluateSpec]

theorem Calculator_eq_none_iff (s : List Char) (hs : ∀ c ∈ s, c ≠ NUL)
    (hfit : evalsFit (0, '+') s = true) :
    Calculator (cstr s) = none ↔ zeroAfterSlash '+' s = true := by
  rw [Calculator_cstr s hs, if_pos hfit, ← evaluateSpec_eq_none_iff]
  simp

theorem Calculator_result_exists (s : List Char) (hs : ∀ c ∈ s, c ≠ NUL)
    (hfit : evalsFit (0, '+') s = true) (hz : zeroAfterSlash '+' s = false) :
    ∃ v : ℤ, Calculator (cstr s) = some (Ty.Int v) := by
  rw [Calculator_cstr s hs, if_pos hfit]
  cases hv : evaluateSpec s with
  | none =>
    rw [evaluateSpec_eq_none_iff, hz] at hv
    exact Bool.noConfusion hv
  | some v => exact ⟨v, rfl⟩

/-- C18: with unbounded integers, `Calculator` has no result exactly when,
during the scan from left to right, the character `0` is processed while the
pending operator is `/`.  On the integers of the specification this holds for
every string; for the template metaprogram it holds for every string of 7-bit
ASCII characters on which no instantiated operator application leaves the
range of `int`, and every other such string has a result.  `1 / 0` has no
result, `0 / 1` gives `Int<0>` and `1 / + 0` gives `Int<1>`. -/
theorem C18_no_result_iff_division_by_zero :
    (∀ s : List Char, evaluateSpec s = none ↔ zeroAfterSlash '+' s = true) ∧
    (∀ s : List Char, (∀ c ∈ s, c ≠ NUL) → (∀ c ∈ s, c.toNat < 128) →
      evalsFit (0, '+') s = true →
      (Calculator (cstr s) = none ↔ zeroAfterSlash '+' s = true) ∧
      (zeroAfterSlash '+' s = false → ∃ v : ℤ, Calculator (cstr s) = some (Ty.Int v))) ∧
    Calculator (cstr "1 / 0".toList) = none ∧
    Calculator (cstr "0 / 1".toList) = some (Ty.Int 0) ∧
    Calculator (cstr "1 / + 0".toList) = some (Ty.Int 1) := by
  refine ⟨evaluateSpec_eq_none_iff, ?_, by decide, by decide, by decide⟩
  intro s hs _ hfit
  exact ⟨Calculator_eq_none_iff s hs hfit, Calculator_result_exists s hs hfit⟩

/-- C18 at the strings `1 / 0` and `1 / + 0`: both are 7-bit ASCII and stay in
the range of `int`; in the first the character `0` is processed while the
pending operator is `/` and there is no result, in the second it is not and
there is one. -/
theorem C18_no_result_iff_division_by_zero_witness :
    ((∀ c ∈ "1 / 0".toList, c.toNat < 128) ∧
      evalsFit (0, '+') "1 / 0".toList = true ∧ zeroAfterSlash '+' "1 / 0".toList = true ∧
      Calculator (cstr "1 / 0".toList) = none) ∧
    ((∀ c ∈ "1 / + 0".toList, c.toNat < 128) ∧
      evalsFit (0, '+') "1 / + 0".toList = true ∧ zeroAfterSlash '+' "1 / + 0".toList = false ∧
      ∃ v : ℤ, Calculator (cstr "1 / + 0".toList) = some (Ty.Int v)) :=
  ⟨⟨by decide, by decide, by decide,
      ((C18_no_result_iff_division_by_zero.2.1 "1 / 0".toList (by decide) (by decide)
        (by decide)).1).mpr (by decide)⟩,
    ⟨by decide, by decide, by decide,
      (C18_no_result_iff_division_by_zero.2.1 "1 / + 0".toList (by decide) (by decide)
        (by decide)).2 (by decide)⟩⟩

/-! ## The bit-packed `Vec4<bool>` -/

theorem Vec4_bool_get (x y z w : Bool) (i : Nat) (h : i < 4) :
    (Vec4_bool.ctor x y z w).get i = [x, y, z, w][i]? := by
  interval_cases i <;> cases x <;> cases y <;> cases z <;> cases w <;> decide

/-- C19: the bit-packed specialisation `Vec4<bool>` agrees with the generic
`Vec4<T>` on the valid indices: for all booleans `x`, `y`, `z`, `w` and every
index `i` from 0 to 3, `Vec4<bool>(x, y, z, w).get(i)` returns the `i`-th
constructor argument, and so does `get(i)` of the array-backed
`Vec4<T>(x, y, z, w)`. -/
theorem C19_Vec4_bool_refines_Vec4 (x y z w : Bool) (i : Nat) (h : i < 4) :
    (Vec4_bool.ctor x y z w).get i = [x, y, z, w][i]? ∧
    (Vec4.ctor x y z w).get i = [x, y, z, w][i]? ∧
    (Vec4_bool.ctor x y z w).get i = (Vec4.ctor x y z w).get i ∧
    ∃ b : Bool, (Vec4_bool.ctor x y z w).get i = some b := by
  have h1 := Vec4_bool_get x y z w i h
  have h2 : (Vec4.ctor x y z w).get i = [x, y, z, w][i]? := rfl
  refine ⟨h1, h2, h1.trans h2.symm, ?_⟩
  rw [h1]
  interval_cases i
  · exact ⟨x, rfl⟩
  · exact ⟨y, rfl⟩
  · exact ⟨z, rfl⟩
  · exact ⟨w, rfl⟩

/-- C19 at `Vec4<bool>(true, false, true, false)` and the index 2: both
`get(2)` return `true`. -/
theorem C19_Vec4_bool_refines_Vec4_witness :
    (Vec4_bool.ctor true false true false).data = 5 ∧
    (Vec4_bool.ctor true false true false).get 2 = some true ∧
    (Vec4.ctor true false true false).get 2 = some true :=
  ⟨by decide,
    (C19_Vec4_bool_refines_Vec4 true false true false 2 (by decide)).1,
    (C19_Vec4_bool_refines_Vec4 true false true false 2 (by decide)).2.1⟩

end Blog
